import Mathlib

/-!
Verification of the AI application-generation orchestrator backend.

Shallow embedding of the repository's core functions:
  * `allocate_port` and the running-backends map
    (`app/apis/project_backend_manager/__init__.py`)
  * `AIContextLoader.update_memory` (`app/libs/ai_context_loader.py`)
  * the tool-calling loop `_stream_with_tools` and the tool dispatcher
    `execute_tool` (`app/libs/ai_orchestrator.py`)
  * `validate_typescript_syntax` (`app/libs/code_validator.py`)
  * `create_file` for TypeScript input (`app/apis/ai_agent_tools/__init__.py`)
  * preview staging, `update_project_pyproject` and `serve_preview_assets`
    (`app/apis/preview/__init__.py`)

Python dictionaries are modelled as association lists in insertion order
(`dictInsert` replaces the value in place for an existing key and appends
new keys at the end, matching CPython's `dict` semantics); `list(set(x))`
is modelled by a deduplication whose exact order is irrelevant to every
statement below (all set-valued claims are phrased through membership and
`Nodup`, or are followed by a sort); machine strings are Lean `String`s.
-/

namespace Holio

set_option maxRecDepth 20000

/-! ## Shared helpers: Python dict / list primitives -/

/-- `d[k] = v` on a Python dict kept in insertion order: replace in place
if the key is present, otherwise append. -/
def dictInsert (m : List (String × String)) (k v : String) :
    List (String × String) :=
  if m.any (fun e => e.1 = k) then
    m.map (fun e => if e.1 = k then (k, v) else e)
  else
    m ++ [(k, v)]

/-- `old.copy(); merged.update(new)`: left-to-right insertion of every
binding of `new` into `old`. -/
def dictUpdate (old new : List (String × String)) :
    List (String × String) :=
  new.foldl (fun a e => dictInsert a e.1 e.2) old

/-- The keys of a dict model. -/
def dictKeys (m : List (String × String)) : List String := m.map Prod.fst

/-- Python `l[-n:]`. -/
def lastN (n : Nat) (l : List String) : List String := l.drop (l.length - n)

/-! Python string primitives over the character list (`String.data`), so
that every definition evaluates inside the kernel. -/

/-- Python `s.startswith(pre)`. -/
def pyStartsWith (s pre : String) : Bool := pre.data.isPrefixOf s.data

/-- Python `s.endswith(suf)`. -/
def pyEndsWith (s suf : String) : Bool := suf.data.isSuffixOf s.data

/-- Python `s[n:]` (code points). -/
def pyDrop (s : String) (n : Nat) : String := String.mk (s.data.drop n)

/-- Python `s.split(c)` for a one-character separator (always returns at
least one piece). -/
def pySplitChar (c : Char) : List Char → List (List Char)
  | [] => [[]]
  | d :: t =>
    if d = c then [] :: pySplitChar c t
    else
      match pySplitChar c t with
      | h :: r => (d :: h) :: r
      | [] => [[d]]

def pySplit (s : String) (c : Char) : List String :=
  (pySplitChar c s.data).map String.mk

/-- Python `sep.join(parts)` at the character level. -/
def pyJoinChar (sep : List Char) : List (List Char) → List Char
  | [] => []
  | [x] => x
  | x :: xs => x ++ sep ++ pyJoinChar sep xs

/-- Python `sep.join(parts)`. -/
def pyJoin (sep : String) (parts : List String) : String :=
  String.mk (pyJoinChar sep.data (parts.map String.data))

/-- Python string `<=`: lexicographic comparison by code point. -/
def strLeChars : List Char → List Char → Bool
  | [], _ => true
  | _ :: _, [] => false
  | a :: as, b :: bs =>
    if a.toNat < b.toNat then true
    else if b.toNat < a.toNat then false
    else strLeChars as bs

def pyStrLe (a b : String) : Prop := strLeChars a.data b.data = true

instance : DecidableRel pyStrLe := fun a b =>
  inferInstanceAs (Decidable (strLeChars a.data b.data = true))

theorem strLeChars_total (a : List Char) :
    ∀ b, (strLeChars a b || strLeChars b a) = true := by
  induction a with
  | nil => intro b; simp [strLeChars]
  | cons x as ih =>
    intro b
    cases b with
    | nil => simp [strLeChars]
    | cons y bs =>
      show (strLeChars (x :: as) (y :: bs) || strLeChars (y :: bs) (x :: as)) = true
      unfold strLeChars
      rcases Nat.lt_trichotomy x.toNat y.toNat with h | h | h
      · rw [if_pos h]
        simp
      · rw [if_neg (by omega), if_neg (by omega), if_neg (by omega), if_neg (by omega)]
        exact ih bs
      · rw [if_neg (by omega), if_pos h]
        simp
        exact Or.inl h

theorem strLeChars_trans (a : List Char) :
    ∀ b c, strLeChars a b = true → strLeChars b c = true →
      strLeChars a c = true := by
  induction a with
  | nil => intro b c _ _; simp [strLeChars]
  | cons x as ih =>
    intro b c hab hbc
    cases b with
    | nil => exact absurd hab (by simp [strLeChars])
    | cons y bs =>
      cases c with
      | nil => exact absurd hbc (by simp [strLeChars])
      | cons z cs =>
        unfold strLeChars at hab hbc ⊢
        rcases Nat.lt_trichotomy x.toNat y.toNat with h1 | h1 | h1
        · rcases Nat.lt_trichotomy y.toNat z.toNat with h2 | h2 | h2
          · rw [if_pos (by omega)]
          · rw [if_pos (by omega)]
          · rw [if_neg (by omega), if_pos (by omega)] at hbc
            cases hbc
        · rcases Nat.lt_trichotomy y.toNat z.toNat with h2 | h2 | h2
          · rw [if_pos (by omega)]
          · rw [if_neg (by omega), if_neg (by omega)] at hab
            rw [if_neg (by omega), if_neg (by omega)] at hbc
            rw [if_neg (by omega), if_neg (by omega)]
            exact ih bs cs hab hbc
          · rw [if_neg (by omega), if_pos (by omega)] at hbc
            cases hbc
        · rw [if_neg (by omega), if_pos (by omega)] at hab
          cases hab

theorem strLeChars_antisymm (a : List Char) :
    ∀ b, strLeChars a b = true → strLeChars b a = true → a = b := by
  induction a with
  | nil =>
    intro b _ hba
    cases b with
    | nil => rfl
    | cons y bs => exact absurd hba (by simp [strLeChars])
  | cons x as ih =>
    intro b hab hba
    cases b with
    | nil => exact absurd hab (by simp [strLeChars])
    | cons y bs =>
      unfold strLeChars at hab hba
      rcases Nat.lt_trichotomy x.toNat y.toNat with h | h | h
      · rw [if_neg (by omega), if_pos h] at hba
        cases hba
      · rw [if_neg (by omega), if_neg (by omega)] at hab
        rw [if_neg (by omega), if_neg (by omega)] at hba
        have hx : x = y := Char.ext (UInt32.toNat.inj h)
        rw [hx, ih bs hab hba]
      · rw [if_neg (by omega), if_pos h] at hab
        cases hab

instance : IsTotal String pyStrLe :=
  ⟨fun a b => by
    have h := strLeChars_total a.data b.data
    have h2 : strLeChars a.data b.data = true ∨ strLeChars b.data a.data = true := by
      simpa using h
    rcases h2 with h1 | h1
    · exact Or.inl h1
    · exact Or.inr h1⟩

instance : IsTrans String pyStrLe :=
  ⟨fun a b c hab hbc => strLeChars_trans a.data b.data c.data hab hbc⟩

instance : IsAntisymm String pyStrLe :=
  ⟨fun a b hab hba => by
    have h := strLeChars_antisymm a.data b.data hab hba
    cases a; cases b; cases h; rfl⟩

/-- Python `sorted(x)` on strings. -/
def pySorted (l : List String) : List String := l.insertionSort pyStrLe

/-- ASCII whitespace for `strip()`. -/
def wsChar (c : Char) : Bool :=
  c = ' ' || c = '\t' || c = '\n' || c = '\r' || c = '\x0b' || c = '\x0c'

/-- Python `s.strip()` (ASCII whitespace). -/
def pyStrip (s : String) : String :=
  String.mk (((s.data.dropWhile wsChar).reverse.dropWhile wsChar).reverse)

/-- Python `list(set(a))` (order irrelevant for all statements below). -/
def pySet (a : List String) : List String := a.dedup

theorem lastN_length_le (n : Nat) (l : List String) : (lastN n l).length ≤ n := by
  simp only [lastN, List.length_drop]
  omega

theorem mem_pySet (x : String) (a : List String) : x ∈ pySet a ↔ x ∈ a := by
  simp [pySet]

theorem pySet_nodup (a : List String) : (pySet a).Nodup := List.nodup_dedup a

/-- Python `d[k]` on the dict model (keys are unique in a dict, so the
first match is the binding). -/
def pyLookup {β : Type} (k : String) : List (String × β) → Option β
  | [] => none
  | e :: t => if e.1 = k then some e.2 else pyLookup k t

theorem pyLookup_eq_none_of_not_mem {β : Type} (k : String) (m : List (String × β))
    (h : ∀ x ∈ m, ¬ x.1 = k) : pyLookup k m = none := by
  induction m with
  | nil => rfl
  | cons e t ih =>
    have h1 : ¬ e.1 = k := h e (List.mem_cons_self e t)
    show (if e.1 = k then some e.2 else pyLookup k t) = none
    rw [if_neg h1]
    exact ih (fun x hx => h x (List.mem_cons_of_mem e hx))

theorem pyLookup_append {β : Type} (q : String) (m l : List (String × β)) :
    pyLookup q (m ++ l) = (pyLookup q m).or (pyLookup q l) := by
  induction m with
  | nil => simp [pyLookup]
  | cons e t ih =>
    by_cases h : e.1 = q
    · simp [pyLookup, h, Option.or]
    · simpa [pyLookup, h] using ih

theorem pyLookup_mapInsert_self (m : List (String × String)) (k v : String)
    (h : ∃ x ∈ m, x.1 = k) :
    pyLookup k (m.map (fun e => if e.1 = k then (k, v) else e)) = some v := by
  induction m with
  | nil => simp at h
  | cons e t ih =>
    by_cases he : e.1 = k
    · simp [pyLookup, he]
    · have ht : ∃ x ∈ t, x.1 = k := by
        obtain ⟨x, hx, hxk⟩ := h
        cases List.mem_cons.mp hx with
        | inl hh => exact absurd (hh ▸ hxk) he
        | inr hh => exact ⟨x, hh, hxk⟩
      simpa [pyLookup, he] using ih ht

theorem pyLookup_mapInsert_ne (m : List (String × String)) (k v q : String)
    (hq : ¬ q = k) :
    pyLookup q (m.map (fun e => if e.1 = k then (k, v) else e)) = pyLookup q m := by
  induction m with
  | nil => rfl
  | cons e t ih =>
    show (if (if e.1 = k then (k, v) else e).1 = q
          then some (if e.1 = k then (k, v) else e).2
          else pyLookup q (t.map (fun e => if e.1 = k then (k, v) else e))) =
        if e.1 = q then some e.2 else pyLookup q t
    by_cases he : e.1 = k
    · rw [if_pos he]
      have h1 : ¬ ((k, v).1 = q) := fun hh => hq hh.symm
      have h2 : ¬ (e.1 = q) := by rw [he]; exact h1
      rw [if_neg h1, if_neg h2]
      exact ih
    · rw [if_neg he]
      by_cases h2 : e.1 = q
      · rw [if_pos h2]
        rw [if_pos h2]
      · rw [if_neg h2]
        rw [if_neg h2]
        exact ih

theorem dictInsert_mem_keys (m : List (String × String)) (k v q : String) :
    q ∈ dictKeys (dictInsert m k v) ↔ q ∈ dictKeys m ∨ q = k := by
  unfold dictInsert dictKeys
  by_cases h : m.any (fun e => e.1 = k)
  · rw [if_pos h]
    simp only [List.any_eq_true, decide_eq_true_eq] at h
    simp only [List.map_map, List.mem_map, Function.comp]
    constructor
    · rintro ⟨e, he, hq⟩
      by_cases hek : e.1 = k
      · rw [if_pos hek] at hq
        exact Or.inr hq.symm
      · rw [if_neg hek] at hq
        exact Or.inl ⟨e, he, hq⟩
    · rintro (⟨e, he, hq⟩ | rfl)
      · by_cases hek : e.1 = k
        · obtain ⟨x, hx, hxk⟩ := h
          exact ⟨x, hx, by rw [if_pos hxk]; rw [← hq, hek]⟩
        · exact ⟨e, he, by rw [if_neg hek]; exact hq⟩
      · obtain ⟨x, hx, hxk⟩ := h
        exact ⟨x, hx, by rw [if_pos hxk]⟩
  · rw [if_neg h]
    simp [List.mem_append, eq_comm]

theorem dictInsert_lookup (m : List (String × String)) (k v q : String) :
    pyLookup q (dictInsert m k v) = if q = k then some v else pyLookup q m := by
  unfold dictInsert
  by_cases h : m.any (fun e => e.1 = k)
  · rw [if_pos h]
    simp only [List.any_eq_true, decide_eq_true_eq] at h
    by_cases hq : q = k
    · subst hq
      rw [if_pos rfl]
      exact pyLookup_mapInsert_self m q v h
    · rw [if_neg hq]
      exact pyLookup_mapInsert_ne m k v q hq
  · rw [if_neg h]
    simp only [List.any_eq_true, decide_eq_true_eq, not_exists, not_and] at h
    rw [pyLookup_append]
    by_cases hq : q = k
    · subst hq
      have hnone : pyLookup q m = none := pyLookup_eq_none_of_not_mem q m h
      simp [pyLookup, hnone, Option.or]
    · rw [if_neg hq]
      have h1 : ¬ k = q := fun hh => hq hh.symm
      have hsingle : pyLookup q [(k, v)] = none := by
        show (if k = q then some v else pyLookup q []) = none
        rw [if_neg h1]
        rfl
      rw [hsingle]
      cases pyLookup q m <;> rfl

theorem dictUpdate_lookup (old new : List (String × String)) (q : String)
    (hnd : (dictKeys new).Nodup) :
    pyLookup q (dictUpdate old new) = (pyLookup q new).or (pyLookup q old) := by
  induction new generalizing old with
  | nil => simp [dictUpdate, pyLookup]
  | cons e t ih =>
    simp only [dictKeys, List.map_cons, List.nodup_cons] at hnd
    have step : dictUpdate old (e :: t) = dictUpdate (dictInsert old e.1 e.2) t := rfl
    rw [step, ih _ hnd.2]
    conv_lhs => rw [dictInsert_lookup]
    by_cases hq : q = e.1
    · have hnone : pyLookup q t = none := by
        apply pyLookup_eq_none_of_not_mem
        intro x hx hxq
        rw [hq] at hxq
        exact hnd.1 (hxq ▸ List.mem_map_of_mem Prod.fst hx)
      rw [if_pos hq, hnone]
      show (some e.2) = (if e.1 = q then some e.2 else pyLookup q t).or (pyLookup q old)
      rw [if_pos hq.symm]
      rfl
    · rw [if_neg hq]
      show (pyLookup q t).or (pyLookup q old) =
        (if e.1 = q then some e.2 else pyLookup q t).or (pyLookup q old)
      rw [if_neg (fun hh => hq hh.symm)]

/-! ## Backend process manager (`app/apis/project_backend_manager/__init__.py`)

The in-memory map `running_backends : project_id → info` is modelled by an
association list from project id to the entry's port (the other fields —
pid, status, timestamps, process handle — play no role in the claims).
-/

def BASE_PORT : Nat := 8001

def MAX_BACKENDS : Nat := 100

/-- The `for i in range(MAX_BACKENDS)` loop of `allocate_port`: `i` is the
current loop index, the second argument the number of indices still to
visit. -/
def allocFrom (used : List Nat) : Nat → Nat → Option Nat
  | _, 0 => none
  | i, fuel + 1 =>
    if BASE_PORT + i ∈ used then allocFrom used (i + 1) fuel
    else some (BASE_PORT + i)

/-- `allocate_port`: first port `BASE_PORT + i`, `i ∈ range(MAX_BACKENDS)`,
not among the ports of `running_backends`; `none` models the final
`raise Exception("No available ports …")`. -/
def allocate_port (used : List Nat) : Option Nat := allocFrom used 0 MAX_BACKENDS

/-- The ports held in the running-backends map (`used_ports`). -/
def usedPorts (m : List (String × Nat)) : List Nat := m.map Prod.snd

/-- `start_backend`: returns the (unchanged/extended) map and the reported
port. `spawnOk = false` models `start_backend_process` raising (missing
venv etc.), in which case the exception propagates before the map is
touched. -/
def start_backend (m : List (String × Nat)) (pid : String) (spawnOk : Bool) :
    List (String × Nat) × Option Nat :=
  match pyLookup pid m with
  | some port => (m, some port)
  | none =>
    match allocate_port (usedPorts m) with
    | none => (m, none)
    | some port =>
      if spawnOk then (m ++ [(pid, port)], some port)
      else (m, none)

/-- `stop_backend_process` removes the entry unconditionally (every exit
path executes `del running_backends[project_id]`); the HTTP handler leaves
the map untouched when the project is absent, which the filter also does. -/
def stop_backend (m : List (String × Nat)) (pid : String) : List (String × Nat) :=
  m.filter (fun e => ¬ e.1 = pid)

inductive BackendOp where
  | start (pid : String) (spawnOk : Bool)
  | stop (pid : String)

def applyBackendOp (m : List (String × Nat)) : BackendOp → List (String × Nat)
  | .start pid ok => (start_backend m pid ok).1
  | .stop pid => stop_backend m pid

def runBackendOps (ops : List BackendOp) : List (String × Nat) :=
  ops.foldl applyBackendOp []

theorem allocFrom_some (used : List Nat) (fuel : Nat) :
    ∀ i p, allocFrom used i fuel = some p →
      BASE_PORT + i ≤ p ∧ p < BASE_PORT + i + fuel ∧ ¬ p ∈ used ∧
      ∀ q, BASE_PORT + i ≤ q → q < p → q ∈ used := by
  induction fuel with
  | zero => intro i p h; exact absurd h (by simp [allocFrom])
  | succ fuel ih =>
    intro i p h
    unfold allocFrom at h
    by_cases hm : BASE_PORT + i ∈ used
    · rw [if_pos hm] at h
      obtain ⟨h1, h2, h3, h4⟩ := ih (i + 1) p h
      refine ⟨by omega, by omega, h3, ?_⟩
      intro q hq1 hq2
      rcases Nat.eq_or_lt_of_le hq1 with hq | hq
      · exact hq ▸ hm
      · exact h4 q (by omega) hq2
    · rw [if_neg hm] at h
      obtain rfl : BASE_PORT + i = p := by injection h
      exact ⟨le_refl _, by omega, hm, fun q hq1 hq2 => absurd (by omega : q < q) (by omega)⟩

theorem allocFrom_none (used : List Nat) (fuel : Nat) :
    ∀ i, allocFrom used i fuel = none ↔ ∀ j, j < fuel → BASE_PORT + i + j ∈ used := by
  induction fuel with
  | zero => intro i; simp [allocFrom]
  | succ fuel ih =>
    intro i
    unfold allocFrom
    by_cases hm : BASE_PORT + i ∈ used
    · rw [if_pos hm, ih (i + 1)]
      constructor
      · intro h j hj
        cases j with
        | zero => simpa using hm
        | succ j =>
          have e : BASE_PORT + i + (j + 1) = BASE_PORT + (i + 1) + j := by omega
          rw [e]
          exact h j (by omega)
      · intro h j hj
        have e : BASE_PORT + (i + 1) + j = BASE_PORT + i + (j + 1) := by omega
        rw [e]
        exact h (j + 1) (by omega)
    · rw [if_neg hm]
      constructor
      · intro h; exact absurd h (by simp)
      · intro h
        exact absurd (by simpa using h 0 (by omega)) hm

theorem start_backend_port_fresh (m : List (String × Nat)) (_pid : String)
    (port : Nat) (h : allocate_port (usedPorts m) = some port) :
    ¬ port ∈ usedPorts m :=
  (allocFrom_some (usedPorts m) MAX_BACKENDS 0 port h).2.2.1

theorem usedPorts_nodup_applyOp (m : List (String × Nat)) (op : BackendOp)
    (h : (usedPorts m).Nodup) : (usedPorts (applyBackendOp m op)).Nodup := by
  cases op with
  | start pid ok =>
    show (usedPorts (start_backend m pid ok).1).Nodup
    unfold start_backend
    cases hl : pyLookup pid m with
    | some port => exact h
    | none =>
      cases ha : allocate_port (usedPorts m) with
      | none => exact h
      | some port =>
        cases ok with
        | false => exact h
        | true =>
          have hfresh := start_backend_port_fresh m pid port ha
          simp only [if_true]
          show (usedPorts (m ++ [(pid, port)])).Nodup
          unfold usedPorts at *
          rw [List.map_append]
          simp [List.nodup_append, h, hfresh]
  | stop pid =>
    show ((m.filter (fun e => ¬ e.1 = pid)).map Prod.snd).Nodup
    unfold usedPorts at h
    exact (List.filter_sublist m).map Prod.snd |>.nodup h

theorem usedPorts_nodup_runOps_from (ops : List BackendOp) :
    ∀ m, (usedPorts m).Nodup → (usedPorts (ops.foldl applyBackendOp m)).Nodup := by
  induction ops with
  | nil => intro m h; exact h
  | cons op t ih =>
    intro m h
    exact ih (applyBackendOp m op) (usedPorts_nodup_applyOp m op h)

/-- C4: `allocate_port` returns the smallest free port in
`[BASE_PORT, BASE_PORT + MAX_BACKENDS)` and raises when all ports are
held; the three-project start/stop scenario allocates 8001, 8002, 8003,
then 8002 again after stopping the middle project; ports in the map stay
pairwise distinct under any sequence of start/stop operations. -/
theorem allocate_port_spec :
    (∀ used p, allocate_port used = some p →
      BASE_PORT ≤ p ∧ p < BASE_PORT + MAX_BACKENDS ∧ ¬ p ∈ used ∧
      ∀ q, BASE_PORT ≤ q → q < p → q ∈ used) ∧
    (∀ used, allocate_port used = none ↔
      ∀ i, i < MAX_BACKENDS → BASE_PORT + i ∈ used) ∧
    ((start_backend [] "p1" true).2 = some 8001 ∧
      (start_backend (start_backend [] "p1" true).1 "p2" true).2 = some 8002 ∧
      (start_backend (start_backend (start_backend [] "p1" true).1 "p2" true).1
          "p3" true).2 = some 8003 ∧
      (start_backend
          (stop_backend
            (start_backend (start_backend (start_backend [] "p1" true).1 "p2" true).1
              "p3" true).1 "p2") "p4" true).2 = some 8002) ∧
    (∀ ops, (usedPorts (runBackendOps ops)).Nodup) := by
  refine ⟨?_, ?_, ?_, ?_⟩
  · intro used p h
    obtain ⟨h1, h2, h3, h4⟩ := allocFrom_some used MAX_BACKENDS 0 p h
    exact ⟨by omega, by omega, h3, fun q hq1 hq2 => h4 q (by omega) hq2⟩
  · intro used
    rw [allocate_port, allocFrom_none used MAX_BACKENDS 0]
    constructor
    · intro h i hi
      have := h i hi
      simpa using this
    · intro h j hj
      have := h j hj
      simpa using this
  · refine ⟨by decide, by decide, by decide, by decide⟩
  · intro ops
    exact usedPorts_nodup_runOps_from ops [] (by simp [usedPorts])

/-- Witness for `allocate_port_spec`: the first two conjuncts applied at a
concrete port list, evaluating the definitions. -/
theorem allocate_port_spec_witness :
    (BASE_PORT ≤ 8002 ∧ 8002 < BASE_PORT + MAX_BACKENDS ∧
      ¬ (8002 : Nat) ∈ [8001, 8003] ∧
      ∀ q, BASE_PORT ≤ q → q < 8002 → q ∈ [8001, 8003]) ∧
    ¬ allocate_port [] = none := by
  constructor
  · exact allocate_port_spec.1 [8001, 8003] 8002 (by decide)
  · intro h
    have := (allocate_port_spec.2.1 []).mp h 0 (by decide)
    simp at this

/-! ## Context loader (`app/libs/ai_context_loader.py`)

`AgentContext.context_data` is a JSON object whose keys may each be
present or absent; `Option` marks key presence. `ai_memory` is a nested
JSON object whose values are abstracted to strings (the merge logic never
inspects them). A `ContextData` value also serves as the bag of keyword
arguments of `update_memory` (a `none` field is an argument that was not
provided, hence not put into the update dict). -/

structure ContextData where
  current_phase : Option String := none
  current_task : Option String := none
  files_generated : Option (List String) := none
  tasks_completed : Option (List String) := none
  recent_errors : Option (List String) := none
  ai_memory : Option (List (String × String)) := none
deriving Repr, DecidableEq

/-- `AIContextLoader.update_memory`: builds the update dict from the
provided arguments; when `merge` and a row exists, set-unions the two
array fields, concatenates-then-truncates `recent_errors` to the last 10,
shallow-merges `ai_memory`, then `existing_data.update(context_data)`;
the result is upserted. Returns the stored `context_data`. -/
def update_memory (store : Option ContextData) (u : ContextData)
    (merge : Bool) : ContextData :=
  if merge then
    match store with
    | none => u
    | some existing_data =>
      let cd : ContextData :=
        { u with
          files_generated :=
            match u.files_generated, existing_data.files_generated with
            | some n, some o => some (pySet (o ++ n))
            | n, _ => n
          tasks_completed :=
            match u.tasks_completed, existing_data.tasks_completed with
            | some n, some o => some (pySet (o ++ n))
            | n, _ => n
          recent_errors :=
            match u.recent_errors, existing_data.recent_errors with
            | some n, some o => some (lastN 10 (o ++ n))
            | n, _ => n
          ai_memory :=
            match u.ai_memory, existing_data.ai_memory with
            | some n, some o => some (dictUpdate o n)
            | n, _ => n }
      { current_phase := cd.current_phase.or existing_data.current_phase
        current_task := cd.current_task.or existing_data.current_task
        files_generated := cd.files_generated.or existing_data.files_generated
        tasks_completed := cd.tasks_completed.or existing_data.tasks_completed
        recent_errors := cd.recent_errors.or existing_data.recent_errors
        ai_memory := cd.ai_memory.or existing_data.ai_memory }
  else u

/-- A sequence of `update_memory` calls against the persisted row,
starting from a given stored state (`none` = no `agent_context` row). -/
def runUpdates : Option ContextData → List (ContextData × Bool) → Option ContextData
  | store, [] => store
  | store, (u, m) :: t => runUpdates (some (update_memory store u m)) t

/-- C2: with a persisted row and `merge=true`, `files_generated` and
`tasks_completed` become the set-union of old and new, `recent_errors`
the concatenation truncated to its last 10 entries, `ai_memory` the
shallow merge (new keys overwrite), and the scalar phase/task fields the
newly provided values; with `merge=false` the provided fields replace the
stored data entirely. -/
theorem update_memory_merge_spec
    (oldPhase oldTask : Option String) (p t : String)
    (fo fn to2 tn ro rn : List String) (mo mn : List (String × String))
    (hnd : (dictKeys mn).Nodup) :
    let ex : ContextData :=
      { current_phase := oldPhase, current_task := oldTask,
        files_generated := some fo, tasks_completed := some to2,
        recent_errors := some ro, ai_memory := some mo }
    let u : ContextData :=
      { current_phase := some p, current_task := some t,
        files_generated := some fn, tasks_completed := some tn,
        recent_errors := some rn, ai_memory := some mn }
    let r := update_memory (some ex) u true
    let r' := update_memory (some ex) u false
    (∃ l, r.files_generated = some l ∧ l.Nodup ∧
      ∀ x, x ∈ l ↔ x ∈ fo ∨ x ∈ fn) ∧
    (∃ l, r.tasks_completed = some l ∧ l.Nodup ∧
      ∀ x, x ∈ l ↔ x ∈ to2 ∨ x ∈ tn) ∧
    r.recent_errors = some ((ro ++ rn).drop ((ro ++ rn).length - 10)) ∧
    (∃ m, r.ai_memory = some m ∧
      ∀ k, pyLookup k m = (pyLookup k mn).or (pyLookup k mo)) ∧
    r.current_phase = some p ∧ r.current_task = some t ∧
    r' = u := by
  intro ex u r r'
  refine ⟨⟨pySet (fo ++ fn), rfl, pySet_nodup _, ?_⟩,
    ⟨pySet (to2 ++ tn), rfl, pySet_nodup _, ?_⟩, rfl,
    ⟨dictUpdate mo mn, rfl, ?_⟩, rfl, rfl, rfl⟩
  · intro x
    rw [mem_pySet]
    exact List.mem_append
  · intro x
    rw [mem_pySet]
    exact List.mem_append
  · intro k
    exact dictUpdate_lookup mo mn k hnd

/-- Witness for `update_memory_merge_spec` at concrete lists and dicts. -/
theorem update_memory_merge_spec_witness :
    (dictKeys [("k1", "v1"), ("k2", "v2")]).Nodup ∧
    (let ex : ContextData :=
      { current_phase := some "ph0", current_task := none,
        files_generated := some ["a", "b"], tasks_completed := some ["t1"],
        recent_errors := some ["e1", "e2"], ai_memory := some [("k1", "v0")] }
     let u : ContextData :=
      { current_phase := some "ph1", current_task := some "tk1",
        files_generated := some ["b", "c"], tasks_completed := some ["t2"],
        recent_errors := some ["e3"], ai_memory := some [("k1", "v1"), ("k2", "v2")] }
     let r := update_memory (some ex) u true
     let r' := update_memory (some ex) u false
     (∃ l, r.files_generated = some l ∧ l.Nodup ∧
       ∀ x, x ∈ l ↔ x ∈ ["a", "b"] ∨ x ∈ ["b", "c"]) ∧
     (∃ l, r.tasks_completed = some l ∧ l.Nodup ∧
       ∀ x, x ∈ l ↔ x ∈ ["t1"] ∨ x ∈ ["t2"]) ∧
     r.recent_errors = some ((["e1", "e2"] ++ ["e3"]).drop
       ((["e1", "e2"] ++ ["e3"]).length - 10)) ∧
     (∃ m, r.ai_memory = some m ∧ ∀ k, pyLookup k m =
       (pyLookup k [("k1", "v1"), ("k2", "v2")]).or (pyLookup k [("k1", "v0")])) ∧
     r.current_phase = some "ph1" ∧ r.current_task = some "tk1" ∧
     r' = u) :=
  ⟨by decide,
    update_memory_merge_spec (some "ph0") none "ph1" "tk1"
      ["a", "b"] ["b", "c"] ["t1"] ["t2"] ["e1", "e2"] ["e3"]
      [("k1", "v0")] [("k1", "v1"), ("k2", "v2")] (by decide)⟩

/-- C3 counterexample: on the very first `update_memory` call (no
persisted row yet) the `recent_errors` argument is stored untruncated, so
passing 11 entries stores 11 — the ≤ 10 cap does not hold in general. -/
theorem recent_errors_cap_counterexample :
    (update_memory none
      { recent_errors := some (List.replicate 11 "err") } true).recent_errors =
      some (List.replicate 11 "err") ∧
    ¬ (List.replicate 11 "err").length ≤ 10 :=
  ⟨rfl, by decide⟩

theorem update_memory_recent_errors_bounded (store : Option ContextData)
    (u : ContextData) (merge : Bool)
    (hstore : ∀ cd l, store = some cd → cd.recent_errors = some l → l.length ≤ 10)
    (hu : ∀ l, u.recent_errors = some l → l.length ≤ 10) :
    ∀ l, (update_memory store u merge).recent_errors = some l → l.length ≤ 10 := by
  intro l hl
  unfold update_memory at hl
  cases merge with
  | false => exact hu l hl
  | true =>
    cases store with
    | none => exact hu l hl
    | some ex =>
      simp only at hl
      cases hun : u.recent_errors with
      | none =>
        rw [hun] at hl
        simp only [Option.none_or] at hl
        exact hstore ex l rfl hl
      | some n =>
        cases hex : ex.recent_errors with
        | none =>
          rw [hun, hex] at hl
          simp only [Option.or] at hl
          obtain rfl : n = l := by injection hl
          exact hu n hun
        | some o =>
          rw [hun, hex] at hl
          simp only [Option.or] at hl
          obtain rfl : lastN 10 (o ++ n) = l := by injection hl
          exact lastN_length_le 10 (o ++ n)

/-- C3 amended: the ≤ 10 bound on the stored `recent_errors` holds after
every sequence of `update_memory` calls (first call included, `merge`
either way) provided each call passes at most 10 entries; the
unconditional bound fails (see `recent_errors_cap_counterexample`). -/
theorem recent_errors_cap_of_bounded_inputs (calls : List (ContextData × Bool))
    (hb : ∀ c ∈ calls, ∀ l, c.1.recent_errors = some l → l.length ≤ 10) :
    ∀ cd l, runUpdates none calls = some cd → cd.recent_errors = some l →
      l.length ≤ 10 := by
  suffices h : ∀ (calls : List (ContextData × Bool)) (store : Option ContextData),
      (∀ c ∈ calls, ∀ l, c.1.recent_errors = some l → l.length ≤ 10) →
      (∀ cd l, store = some cd → cd.recent_errors = some l → l.length ≤ 10) →
      ∀ cd l, runUpdates store calls = some cd → cd.recent_errors = some l →
        l.length ≤ 10 by
    exact h calls none hb (by intro cd l h1 h2; cases h1)
  intro calls
  induction calls with
  | nil =>
    intro store _ hstore cd l h1 h2
    exact hstore cd l h1 h2
  | cons c t ih =>
    intro store hb2 hstore cd l h1 h2
    obtain ⟨u, m⟩ := c
    refine ih (some (update_memory store u m))
      (fun x hx => hb2 x (List.mem_cons_of_mem _ hx)) ?_ cd l h1 h2
    intro cd2 l2 he hl2
    obtain rfl : update_memory store u m = cd2 := by injection he
    exact update_memory_recent_errors_bounded store u m hstore
      (hb2 (u, m) (List.mem_cons_self _ _) ) l2 hl2

/-- Witness for `recent_errors_cap_of_bounded_inputs`: two concrete calls,
the second `merge=false`, evaluated to the final stored context. -/
theorem recent_errors_cap_witness :
    runUpdates none
        [({ recent_errors := some ["a", "b"] }, true),
         ({ recent_errors := some ["c"] }, false)] =
      some { recent_errors := some ["c"] } ∧
    (["c"] : List String).length ≤ 10 :=
  ⟨rfl, recent_errors_cap_of_bounded_inputs
    [({ recent_errors := some ["a", "b"] }, true),
     ({ recent_errors := some ["c"] }, false)] (by
    intro c hc l hl
    rcases List.mem_cons.mp hc with rfl | hc2
    · simp only at hl
      obtain rfl : ["a", "b"] = l := by injection hl
      decide
    · rcases List.mem_cons.mp hc2 with rfl | hc3
      · simp only at hl
        obtain rfl : ["c"] = l := by injection hl
        decide
      · cases hc3)
    { recent_errors := some ["c"] } ["c"] rfl rfl⟩

/-- Witness for `update_memory_recent_errors_bounded` at concrete data. -/
theorem update_memory_recent_errors_bounded_witness :
    ∀ l, (update_memory (some { recent_errors := some ["x"] })
        { recent_errors := some ["y"] } true).recent_errors = some l →
      l.length ≤ 10 :=
  update_memory_recent_errors_bounded (some { recent_errors := some ["x"] })
    { recent_errors := some ["y"] } true
    (by
      intro cd l h1 h2
      obtain rfl : ({ recent_errors := some ["x"] } : ContextData) = cd := by injection h1
      simp only at h2
      obtain rfl : ["x"] = l := by injection h2
      decide)
    (by
      intro l h
      simp only at h
      obtain rfl : ["y"] = l := by injection h
      decide)

/-! ## Orchestrator tool loop and dispatcher (`app/libs/ai_orchestrator.py`)

`_stream_with_tools` is a `while iteration < max_iterations` loop; each
pass makes one model call. The model's successive responses are an oracle
`resps : Nat → ModelResp` (`resps i` is the response to the `(i+1)`-th
call). The loop breaks when a response carries no tool calls — after
having incremented `iteration` — and after the loop the warning chunk is
yielded exactly when `iteration >= max_iterations`. -/

structure ToolCall where
  id : String
  name : String
  arguments : String
deriving Repr, DecidableEq

structure ModelResp where
  content : Option String := none
  toolCalls : List ToolCall := []
deriving Repr

/-- The `while iteration < max_iterations` loop of `_stream_with_tools`,
returning the final value of `iteration`; the first argument is the
current `iteration`, the second the number of loop passes still allowed
(`max_iterations - iteration`). -/
def whileIter (resps : Nat → ModelResp) : Nat → Nat → Nat
  | it, 0 => it
  | it, fuel + 1 =>
    if (resps it).toolCalls = [] then it + 1
    else whileIter resps (it + 1) fuel

/-- Number of model iterations performed by `_stream_with_tools`. -/
def streamIterations (resps : Nat → ModelResp) (max_iterations : Nat) : Nat :=
  whileIter resps 0 max_iterations

/-- Whether the final `iteration >= max_iterations` check fires, i.e.
whether the "Maximum tool execution iterations reached" warning chunk is
yielded. -/
def streamWarned (resps : Nat → ModelResp) (max_iterations : Nat) : Bool :=
  max_iterations ≤ streamIterations resps max_iterations

/-- A run in which the model requests tools on iterations 1–4 and stops
requesting tools on iteration 5. -/
def exStopAtFive : Nat → ModelResp := fun i =>
  if i < 4 then { toolCalls := [{ id := "c", name := "list_tasks", arguments := "" }] }
  else { toolCalls := [] }

/-- A run in which the model requests tools on every iteration. -/
def exAlwaysTools : Nat → ModelResp := fun _ =>
  { toolCalls := [{ id := "c", name := "list_tasks", arguments := "" }] }

theorem whileIter_le (resps : Nat → ModelResp) (fuel : Nat) :
    ∀ it, whileIter resps it fuel ≤ it + fuel := by
  induction fuel with
  | zero => intro it; simp [whileIter]
  | succ fuel ih =>
    intro it
    unfold whileIter
    by_cases h : (resps it).toolCalls = []
    · rw [if_pos h]; omega
    · rw [if_neg h]
      have := ih (it + 1)
      omega

theorem whileIter_ge_iff (resps : Nat → ModelResp) (fuel : Nat) :
    ∀ it, it + fuel + 1 ≤ whileIter resps it (fuel + 1) ↔
      ∀ k, k < fuel → ¬ (resps (it + k)).toolCalls = [] := by
  induction fuel with
  | zero =>
    intro it
    constructor
    · intro _ k hk; omega
    · intro _
      unfold whileIter
      by_cases h : (resps it).toolCalls = []
      · rw [if_pos h]
      · rw [if_neg h]
        simp [whileIter]
  | succ fuel ih =>
    intro it
    unfold whileIter
    by_cases h : (resps it).toolCalls = []
    · rw [if_pos h]
      constructor
      · intro hle; omega
      · intro hall
        exact absurd h (by simpa using hall 0 (by omega))
    · rw [if_neg h]
      constructor
      · intro hle k hk
        cases k with
        | zero => simpa using h
        | succ k =>
          have := (ih (it + 1)).mp (by omega)
          have hk2 := this k (by omega)
          have e : it + 1 + k = it + (k + 1) := by omega
          rw [e] at hk2
          exact hk2
      · intro hall
        have : ∀ k, k < fuel → ¬ (resps (it + 1 + k)).toolCalls = [] := by
          intro k hk
          have := hall (k + 1) (by omega)
          have e : it + (k + 1) = it + 1 + k := by omega
          rw [e] at this
          exact this
        have := (ih (it + 1)).mpr this
        omega

/-- C1 counterexample: when the model requests tools on the first four
iterations and stops on the fifth, the loop ends via the no-tool-calls
break, yet the final `iteration >= max_iterations` check still fires and
the "maximum iterations" warning chunk is emitted — contradicting the
claim that the warning is not emitted when the loop ends because the
model stopped requesting tools. -/
theorem stream_warning_counterexample :
    streamIterations exStopAtFive 5 = 5 ∧
    (exStopAtFive 4).toolCalls = [] ∧
    streamWarned exStopAtFive 5 = true := by
  refine ⟨rfl, rfl, rfl⟩

/-- C1 amended: the loop performs at most 5 model iterations; if the model
requests tools on every iteration the loop stops after the fifth; the
"maximum iterations" warning chunk is emitted iff the iteration counter
reaches 5, i.e. iff the model requested tools on each of the first four
iterations — including the run where the fifth response requests no
tools. -/
theorem stream_with_tools_bound (resps : Nat → ModelResp) :
    streamIterations resps 5 ≤ 5 ∧
    ((∀ i, i < 5 → ¬ (resps i).toolCalls = []) → streamIterations resps 5 = 5) ∧
    (streamWarned resps 5 = true ↔ ∀ i, i < 4 → ¬ (resps i).toolCalls = []) := by
  have hle : streamIterations resps 5 ≤ 5 := by
    have := whileIter_le resps 5 0
    simpa [streamIterations] using this
  have hiff : streamWarned resps 5 = true ↔
      ∀ i, i < 4 → ¬ (resps i).toolCalls = [] := by
    unfold streamWarned
    rw [decide_eq_true_eq]
    have := whileIter_ge_iff resps 4 0
    simp only [Nat.zero_add] at this
    rw [show (5 : Nat) = 4 + 1 from rfl]
    exact this.trans (by
      constructor
      · intro h i hi; exact h i hi
      · intro h i hi; exact h i hi)
  refine ⟨hle, ?_, hiff⟩
  · intro hall
    have h4 : ∀ i, i < 4 → ¬ (resps i).toolCalls = [] :=
      fun i hi => hall i (by omega)
    have := hiff.mpr h4
    unfold streamWarned at this
    rw [decide_eq_true_eq] at this
    omega

/-- Witness for `stream_with_tools_bound`: the always-requesting run
performs exactly 5 iterations. -/
theorem stream_with_tools_bound_witness :
    streamIterations exAlwaysTools 5 = 5 :=
  (stream_with_tools_bound exAlwaysTools).2.1
    (fun i _ => by simp [exAlwaysTools])

/-! The tool dispatcher `AIOrchestrator.execute_tool`: a 24-branch name
dispatch wrapped in `try`/`except Exception`. Handler bodies (argument
parsing, endpoint call, result massaging) are abstracted to an outcome
oracle: `.ret s` is a branch returning a dict whose `success` field is
`s` (payload fields beyond `success`/`error`/`traceback` are irrelevant to
the claim and dropped), `.raiseExn m tb` is an exception escaping the
branch with message `m` and formatted traceback `tb`. -/

def knownTools : List String :=
  ["create_task", "update_task", "list_tasks", "delete_task", "add_task_comment",
   "create_file", "update_file", "read_files", "search_code", "delete_file",
   "run_migration", "run_sql_query", "get_sql_schema",
   "run_python_script", "read_logs", "test_endpoint", "troubleshoot",
   "enable_integration", "install_packages", "visualize_data", "request_data",
   "trigger_build", "get_open_errors", "resolve_error"]

structure ToolResult where
  success : Bool
  error : Option String := none
  traceback : Option String := none
deriving Repr, DecidableEq

inductive HandlerOutcome where
  | ret (success : Bool)
  | raiseExn (msg : String) (tb : String)

/-- `AIOrchestrator.execute_tool`: route by name, convert any escaping
exception to `{success: false, error, traceback}`, return
`{success: false, error: "Unknown tool: …"}` for unregistered names;
total — it never raises. -/
def execute_tool (handler : String → List (String × String) → HandlerOutcome)
    (tool_name : String) (parameters : List (String × String)) : ToolResult :=
  if tool_name ∈ knownTools then
    match handler tool_name parameters with
    | .ret s => { success := s }
    | .raiseExn m tb =>
      { success := false, error := some ("Tool execution failed: " ++ m),
        traceback := some tb }
  else
    { success := false, error := some ("Unknown tool: " ++ tool_name) }

/-- C8: `execute_tool` is total (it returns a `ToolResult` for every name,
argument dict and handler behaviour — the Lean function cannot raise);
an exception inside a dispatched handler becomes
`{success: false, error, traceback}`, and an unregistered tool name yields
`{success: false, error: "Unknown tool: …"}`, so the dialog can continue. -/
theorem execute_tool_never_raises
    (handler : String → List (String × String) → HandlerOutcome)
    (tool_name : String) (parameters : List (String × String)) :
    (tool_name ∈ knownTools →
      ∀ m tb, handler tool_name parameters = .raiseExn m tb →
        execute_tool handler tool_name parameters =
          { success := false, error := some ("Tool execution failed: " ++ m),
            traceback := some tb }) ∧
    (¬ tool_name ∈ knownTools →
      execute_tool handler tool_name parameters =
        { success := false, error := some ("Unknown tool: " ++ tool_name),
          traceback := none }) := by
  constructor
  · intro hmem m tb hh
    unfold execute_tool
    rw [if_pos hmem, hh]
  · intro hmem
    unfold execute_tool
    rw [if_neg hmem]

/-- Witness for `execute_tool_never_raises`: a raising handler on the
registered `create_file` branch, and the unregistered name `frobnicate`. -/
theorem execute_tool_never_raises_witness :
    execute_tool (fun _ _ => .raiseExn "boom" "tb") "create_file" [] =
      { success := false, error := some ("Tool execution failed: " ++ "boom"),
        traceback := some "tb" } ∧
    execute_tool (fun _ _ => .ret true) "frobnicate" [] =
      { success := false, error := some ("Unknown tool: " ++ "frobnicate"),
        traceback := none } :=
  ⟨(execute_tool_never_raises (fun _ _ => .raiseExn "boom" "tb") "create_file" []).1
      (by decide) "boom" "tb" rfl,
    (execute_tool_never_raises (fun _ _ => .ret true) "frobnicate" []).2 (by decide)⟩

/-! ## Code validator (`app/libs/code_validator.py`)

`validate_typescript_syntax` scans for the regular expression

  `import\s+(?:{[^}]+}|\w+|\*\s+as\s+\w+)\s+from\s+["\']([^"\']+)["\']`

with `re.finditer`. The scanner below is its operational embedding: at
each position the pattern is tried; on failure the scan advances one
character (finditer semantics). Every `X+` piece is matched by its
maximal run — backtracking to a shorter run can never succeed here
because each run's character class excludes the character that must
follow it. `\w`/`\s` are modelled over ASCII. -/

def isWordChar (c : Char) : Bool := c.isAlphanum || c = '_'

def isSpaceChar (c : Char) : Bool :=
  c = ' ' || c = '\t' || c = '\n' || c = '\r' || c = '\x0b' || c = '\x0c'

def isQuoteChar (c : Char) : Bool := c = '"' || c = '\''

/-- Match a literal character sequence, returning the remainder. -/
def dropLit : List Char → List Char → Option (List Char)
  | [], cs => some cs
  | _ :: _, [] => none
  | l :: ls, c :: cs => if c = l then dropLit ls cs else none

/-- `p+`: one or more characters satisfying `p` (maximal run). -/
def takeWhile1 (p : Char → Bool) (cs : List Char) :
    Option (List Char × List Char) :=
  match cs.takeWhile p with
  | [] => none
  | t => some (t, cs.dropWhile p)

/-- The import-clause alternation `{[^}]+}|\w+|\*\s+as\s+\w+`. -/
def matchClause : List Char → Option (List Char)
  | [] => none
  | c :: rest =>
    if c = '{' then
      match takeWhile1 (fun d => ¬ d = '}') rest with
      | none => none
      | some (_, r1) =>
        match r1 with
        | [] => none
        | d :: r2 => if d = '}' then some r2 else none
    else if c = '*' then
      match takeWhile1 isSpaceChar rest with
      | some (_, cs1) =>
        match dropLit ['a', 's'] cs1 with
        | some cs2 =>
          match takeWhile1 isSpaceChar cs2 with
          | some (_, cs3) =>
            match takeWhile1 isWordChar cs3 with
            | some (_, cs4) => some cs4
            | none => none
          | none => none
        | none => none
      | none => none
    else if isWordChar c then
      some ((c :: rest).dropWhile isWordChar)
    else none

/-- Attempt the full import pattern at the current position; on success
return the captured group (the module specifier) and the remainder after
the match. -/
def matchImportAt (cs : List Char) : Option (String × List Char) :=
  match dropLit "import".toList cs with
  | none => none
  | some cs0 =>
    match takeWhile1 isSpaceChar cs0 with
    | none => none
    | some (_, cs1) =>
      match matchClause cs1 with
      | none => none
      | some cs2 =>
        match takeWhile1 isSpaceChar cs2 with
        | none => none
        | some (_, cs3) =>
          match dropLit "from".toList cs3 with
          | none => none
          | some cs4 =>
            match takeWhile1 isSpaceChar cs4 with
            | none => none
            | some (_, cs5) =>
              match cs5 with
              | [] => none
              | q :: cs6 =>
                if isQuoteChar q then
                  match takeWhile1 (fun d => ¬ isQuoteChar d) cs6 with
                  | none => none
                  | some (spec, r1) =>
                    match r1 with
                    | [] => none
                    | q2 :: rest =>
                      if isQuoteChar q2 then some (String.mk spec, rest)
                      else none
                else none

theorem dropLit_length_le (l : List Char) :
    ∀ cs r, dropLit l cs = some r → r.length + l.length = cs.length := by
  induction l with
  | nil =>
    intro cs r h
    obtain rfl : cs = r := by injection h
    simp
  | cons a ls ih =>
    intro cs r h
    cases cs with
    | nil => exact absurd h (by simp [dropLit])
    | cons c t =>
      unfold dropLit at h
      by_cases hc : c = a
      · rw [if_pos hc] at h
        have := ih t r h
        simp only [List.length_cons]
        omega
      · rw [if_neg hc] at h
        cases h

theorem takeWhile1_length_lt (p : Char → Bool) (cs : List Char) (t r : List Char)
    (h : takeWhile1 p cs = some (t, r)) : r.length < cs.length := by
  unfold takeWhile1 at h
  cases hw : cs.takeWhile p with
  | nil => rw [hw] at h; cases h
  | cons a u =>
    rw [hw] at h
    have h2 : ((a :: u, cs.dropWhile p) : List Char × List Char) = (t, r) := by
      injection h
    have hr : cs.dropWhile p = r := congrArg Prod.snd h2
    have hrl := congrArg List.length hr
    have hsplit := congrArg List.length (List.takeWhile_append_dropWhile p cs)
    rw [List.length_append, hw] at hsplit
    simp only [List.length_cons] at hsplit
    omega

theorem matchClause_length_le (cs r : List Char) (h : matchClause cs = some r) :
    r.length ≤ cs.length := by
  cases cs with
  | nil => exact absurd h (by simp [matchClause])
  | cons c rest =>
    simp only [matchClause] at h
    by_cases h1 : c = '{'
    · rw [if_pos h1] at h
      cases hw : takeWhile1 (fun d => ¬ d = '}') rest with
      | none => rw [hw] at h; cases h
      | some pr =>
        obtain ⟨t, rr⟩ := pr
        rw [hw] at h
        dsimp only at h
        cases rr with
        | nil => cases h
        | cons d rr2 =>
          dsimp only at h
          by_cases hd : d = '}'
          · rw [if_pos hd] at h
            obtain rfl : rr2 = r := by injection h
            have := takeWhile1_length_lt _ rest t (d :: rr2) hw
            simp only [List.length_cons] at *
            omega
          · rw [if_neg hd] at h
            cases h
    · rw [if_neg h1] at h
      by_cases h2 : c = '*'
      · rw [if_pos h2] at h
        cases hw1 : takeWhile1 isSpaceChar rest with
        | none => rw [hw1] at h; cases h
        | some pr1 =>
          obtain ⟨t1, cs1⟩ := pr1
          rw [hw1] at h
          dsimp only at h
          cases hd : dropLit ['a', 's'] cs1 with
          | none => rw [hd] at h; cases h
          | some cs2 =>
            rw [hd] at h
            dsimp only at h
            cases hw2 : takeWhile1 isSpaceChar cs2 with
            | none => rw [hw2] at h; cases h
            | some pr2 =>
              obtain ⟨t2, cs3⟩ := pr2
              rw [hw2] at h
              dsimp only at h
              cases hw3 : takeWhile1 isWordChar cs3 with
              | none => rw [hw3] at h; cases h
              | some pr3 =>
                obtain ⟨t3, cs4⟩ := pr3
                rw [hw3] at h
                dsimp only at h
                obtain rfl : cs4 = r := by injection h
                have l1 := takeWhile1_length_lt _ rest t1 cs1 hw1
                have l2 := dropLit_length_le ['a', 's'] cs1 cs2 hd
                have l3 := takeWhile1_length_lt _ cs2 t2 cs3 hw2
                have l4 := takeWhile1_length_lt _ cs3 t3 cs4 hw3
                simp only [List.length_cons] at *
                omega
      · rw [if_neg h2] at h
        by_cases h3 : isWordChar c
        · rw [if_pos h3] at h
          obtain rfl : (c :: rest).dropWhile isWordChar = r := by injection h
          have hsplit := congrArg List.length
            (List.takeWhile_append_dropWhile isWordChar (c :: rest))
          rw [List.length_append] at hsplit
          omega
        · rw [if_neg h3] at h
          cases h

theorem matchImportAt_length_lt (cs : List Char) (s : String) (r : List Char)
    (h : matchImportAt cs = some (s, r)) : r.length < cs.length := by
  unfold matchImportAt at h
  cases hd0 : dropLit "import".toList cs with
  | none => rw [hd0] at h; cases h
  | some cs0 =>
    rw [hd0] at h
    dsimp only at h
    cases hw0 : takeWhile1 isSpaceChar cs0 with
    | none => rw [hw0] at h; cases h
    | some pr0 =>
      obtain ⟨t0, cs1⟩ := pr0
      rw [hw0] at h
      dsimp only at h
      cases hc : matchClause cs1 with
      | none => rw [hc] at h; cases h
      | some cs2 =>
        rw [hc] at h
        dsimp only at h
        cases hw1 : takeWhile1 isSpaceChar cs2 with
        | none => rw [hw1] at h; cases h
        | some pr1 =>
          obtain ⟨t1, cs3⟩ := pr1
          rw [hw1] at h
          dsimp only at h
          cases hd1 : dropLit "from".toList cs3 with
          | none => rw [hd1] at h; cases h
          | some cs4 =>
            rw [hd1] at h
            dsimp only at h
            cases hw2 : takeWhile1 isSpaceChar cs4 with
            | none => rw [hw2] at h; cases h
            | some pr2 =>
              obtain ⟨t2, cs5⟩ := pr2
              rw [hw2] at h
              dsimp only at h
              cases cs5 with
              | nil => cases h
              | cons q cs6 =>
                dsimp only at h
                by_cases hq : isQuoteChar q
                · rw [if_pos hq] at h
                  cases hw3 : takeWhile1 (fun d => ¬ isQuoteChar d) cs6 with
                  | none => rw [hw3] at h; cases h
                  | some pr3 =>
                    obtain ⟨spec, rr⟩ := pr3
                    rw [hw3] at h
                    dsimp only at h
                    cases rr with
                    | nil => exact absurd h (by simp)
                    | cons q2 rest =>
                      dsimp only at h
                      by_cases hq2 : isQuoteChar q2
                      · rw [if_pos hq2] at h
                        have hrr : rest = r := by
                          have h2 : ((String.mk spec, rest) : String × List Char)
                              = (s, r) := by injection h
                          exact congrArg Prod.snd h2
                        have l0 := dropLit_length_le "import".toList cs cs0 hd0
                        have l1 := takeWhile1_length_lt isSpaceChar cs0 t0 cs1 hw0
                        have l2 := matchClause_length_le cs1 cs2 hc
                        have l3 := takeWhile1_length_lt isSpaceChar cs2 t1 cs3 hw1
                        have l4 := dropLit_length_le "from".toList cs3 cs4 hd1
                        have l5 := takeWhile1_length_lt isSpaceChar cs4 t2
                          (q :: cs6) hw2
                        have l6 := takeWhile1_length_lt _ cs6 spec
                          (q2 :: rest) hw3
                        have e1 : ("import".toList).length = 6 := rfl
                        have e2 : ("from".toList).length = 4 := rfl
                        rw [e1] at l0
                        rw [e2] at l4
                        have hrl := congrArg List.length hrr
                        simp only [List.length_cons] at l5 l6
                        omega
                      · rw [if_neg hq2] at h
                        cases h
                · rw [if_neg hq] at h
                  cases h

/-- `re.finditer` over the whole string: try the pattern at every
position, emitting the captured specifier and resuming after each
match. -/
def scanImports : List Char → List String
  | [] => []
  | c :: rest =>
    match hm : matchImportAt (c :: rest) with
    | some (spec, after) => spec :: scanImports after
    | none => scanImports rest
termination_by cs => cs.length
decreasing_by
  · exact matchImportAt_length_lt _ _ _ hm
  · simp only [List.length_cons]
    omega

/-- The per-match package reduction: `import_path.split('/')[0]`, and for
scoped packages `'/'.join(import_path.split('/')[:2])`. -/
def packageOf (import_path : String) : String :=
  let parts := pySplit import_path '/'
  let package := parts.headD ""
  if pyStartsWith package "@" then pyJoin "/" (parts.take 2)
  else package

/-- The import list produced by the scan loop of
`validate_typescript_syntax`: non-relative specifiers reduced by
`packageOf`, then `list(set(…))`. -/
def tsImports (code : String) : List String :=
  pySet (((scanImports code.toList).filter
    (fun spec => ! pyStartsWith spec ".")).map packageOf)

structure ValidationErr where
  error_type : String
  message : String
  line_number : Option Nat := none
  column : Option Nat := none
  suggestion : Option String := none
deriving Repr, DecidableEq

structure ValidationResult where
  is_valid : Bool
  errors : List ValidationErr
  warnings : List String
  imports : List String
deriving Repr, DecidableEq

/-- `validate_typescript_syntax`: pure bracket-count checks plus the
scan for imports. One error entry per mismatched bracket kind, in source
order braces, parentheses, brackets. -/
def validate_typescript_syntax (code : String) : ValidationResult :=
  let imports := tsImports code
  let open_braces := code.toList.count '{'
  let close_braces := code.toList.count '}'
  let open_parens := code.toList.count '('
  let close_parens := code.toList.count ')'
  let open_brackets := code.toList.count '['
  let close_brackets := code.toList.count ']'
  let errors : List ValidationErr :=
    (if ¬ open_braces = close_braces then
      [{ error_type := "syntax",
         message := "Unmatched braces: " ++ toString open_braces ++ " open, " ++
           toString close_braces ++ " close",
         suggestion := some "Check for missing or extra braces" }]
     else []) ++
    (if ¬ open_parens = close_parens then
      [{ error_type := "syntax",
         message := "Unmatched parentheses: " ++ toString open_parens ++
           " open, " ++ toString close_parens ++ " close",
         suggestion := some "Check for missing or extra parentheses" }]
     else []) ++
    (if ¬ open_brackets = close_brackets then
      [{ error_type := "syntax",
         message := "Unmatched brackets: " ++ toString open_brackets ++
           " open, " ++ toString close_brackets ++ " close",
         suggestion := some "Check for missing or extra brackets" }]
     else [])
  { is_valid := errors.isEmpty
    errors := errors
    warnings := []
    imports := imports }

/-- C9: `validate_typescript_syntax` is a pure function of its input
(embedded as a Lean function, hence deterministic and I/O-free);
`is_valid` holds iff the three bracket counts each match, with exactly
one error naming each mismatched kind; the imports are the deduplicated
non-relative `from "<spec>"` specifiers reduced to their package
(first path segment; first two segments for scoped `@org/pkg/…`). -/
theorem validate_typescript_syntax_spec (code : String) :
    (( validate_typescript_syntax code).is_valid = true ↔
      (code.toList.count '{' = code.toList.count '}' ∧
       code.toList.count '(' = code.toList.count ')' ∧
       code.toList.count '[' = code.toList.count ']')) ∧
    ( validate_typescript_syntax code).errors.length =
      ((if code.toList.count '{' = code.toList.count '}' then 0 else 1) +
       (if code.toList.count '(' = code.toList.count ')' then 0 else 1) +
       (if code.toList.count '[' = code.toList.count ']' then 0 else 1)) ∧
    (¬ code.toList.count '{' = code.toList.count '}' →
      ("Unmatched braces: " ++ toString (code.toList.count '{') ++ " open, " ++
        toString (code.toList.count '}') ++ " close") ∈
        ( validate_typescript_syntax code).errors.map ValidationErr.message) ∧
    (¬ code.toList.count '(' = code.toList.count ')' →
      ("Unmatched parentheses: " ++ toString (code.toList.count '(') ++
        " open, " ++ toString (code.toList.count ')') ++ " close") ∈
        ( validate_typescript_syntax code).errors.map ValidationErr.message) ∧
    (¬ code.toList.count '[' = code.toList.count ']' →
      ("Unmatched brackets: " ++ toString (code.toList.count '[') ++
        " open, " ++ toString (code.toList.count ']') ++ " close") ∈
        ( validate_typescript_syntax code).errors.map ValidationErr.message) ∧
    ( validate_typescript_syntax code).imports.Nodup ∧
    (∀ pkg, pkg ∈ ( validate_typescript_syntax code).imports ↔
      ∃ spec, spec ∈ scanImports code.toList ∧ pyStartsWith spec "." = false ∧
        packageOf spec = pkg) := by
  have himp : ∀ pkg, pkg ∈ ( validate_typescript_syntax code).imports ↔
      ∃ spec, spec ∈ scanImports code.toList ∧ pyStartsWith spec "." = false ∧
        packageOf spec = pkg := by
    intro pkg
    show pkg ∈ tsImports code ↔ _
    unfold tsImports
    rw [mem_pySet, List.mem_map]
    constructor
    · rintro ⟨spec, hsp, rfl⟩
      rw [List.mem_filter] at hsp
      exact ⟨spec, hsp.1, by simpa using hsp.2, rfl⟩
    · rintro ⟨spec, hsp, hrel, rfl⟩
      exact ⟨spec, List.mem_filter.mpr ⟨hsp, by simpa using hrel⟩, rfl⟩
  have hnd : ( validate_typescript_syntax code).imports.Nodup := pySet_nodup _
  refine ⟨?_, ?_, ?_, ?_, ?_, hnd, himp⟩ <;>
    by_cases hb : code.data.count '{' = code.data.count '}' <;>
    by_cases hp : code.data.count '(' = code.data.count ')' <;>
    by_cases hk : code.data.count '[' = code.data.count ']' <;>
    simp [ validate_typescript_syntax, String.toList, hb, hp, hk]

/-- A TypeScript snippet with one unmatched opening parenthesis and one
non-relative import. -/
def tsUnbalanced : String := "import Foo from \"pkg/sub\" ("

/-- Witness for `validate_typescript_syntax_spec`: the parenthesis branch
evaluated on `tsUnbalanced`. -/
theorem validate_typescript_syntax_spec_witness :
    ¬ tsUnbalanced.toList.count '(' = tsUnbalanced.toList.count ')' ∧
    ("Unmatched parentheses: " ++ toString (tsUnbalanced.toList.count '(') ++
      " open, " ++ toString (tsUnbalanced.toList.count ')') ++ " close") ∈
      ( validate_typescript_syntax tsUnbalanced).errors.map ValidationErr.message :=
  ⟨by decide, ( validate_typescript_syntax_spec tsUnbalanced).2.2.2.1 (by decide)⟩

/-! ## `create_file` for TypeScript input
(`app/apis/ai_agent_tools/__init__.py`)

The endpoint body is one big `try:` whose tail is
`except Exception as e: raise HTTPException(500, f"File creation failed: {e}")`.
FastAPI's `HTTPException` derives from `Exception`, so the
`HTTPException(400, …)` raised on a failed validation/auto-heal is caught
by that blanket handler and re-raised with status 500. `str()` of a
starlette `HTTPException` renders as `"<status>: <detail>"`
(`strHTTPException`). The auto-healer (`auto_heal_code`, a model call) is
an oracle: `.raised` = it raised, `.healed c` = it returned `c`. -/

def tsErrorDetails (errors : List ValidationErr) : String :=
  String.intercalate "\n" (errors.map (fun err =>
    err.message ++
      match err.suggestion with
      | some s => " (Suggestion: " ++ s ++ ")"
      | none => ""))

inductive HealOutcome where
  | raised
  | healed (code : String)

/-- `created c` = a row with content `c` was inserted; `httpError s d` =
the call failed with HTTP status `s` and detail `d`, and no row was
inserted. -/
inductive CreateFileOutcome where
  | created (stored : String)
  | httpError (status : Nat) (detail : String)
deriving Repr, DecidableEq

def strHTTPException (status : Nat) (detail : String) : String :=
  toString status ++ ": " ++ detail

/-- `create_file` for `language = "typescript"`. `existsAlready` models the
`project_files` duplicate check; package detection after the insert never
affects the outcome (its failures are swallowed). -/
def create_file_typescript (existsAlready : Bool) (content : String)
    (heal : String → HealOutcome) : CreateFileOutcome :=
  let v := validate_typescript_syntax content
  let afterValidation : Except (Nat × String) String :=
    if v.is_valid then .ok content
    else
      match heal content with
      | .raised =>
        .error (400, "TypeScript syntax validation failed:\n" ++
          tsErrorDetails v.errors)
      | .healed h =>
        if ( validate_typescript_syntax h).is_valid then .ok h
        else
          .error (400, "TypeScript syntax validation failed:\n" ++
            tsErrorDetails v.errors)
  match afterValidation with
  | .error (s, d) =>
    .httpError 500 ("File creation failed: " ++ strHTTPException s d)
  | .ok final_code =>
    if existsAlready then
      .httpError 500 ("File creation failed: " ++
        strHTTPException 400 "File already exists. Use update endpoint.")
    else .created final_code

/-- A TypeScript file body with a single unmatched `{`. -/
def brokenTs : String := "export const f = () => \x7b"

/-- C6: creating a TypeScript file whose content has an unmatched `{`,
with the auto-heal attempt failing (shown for both failure modes: the
healer raising, and the healer returning still-invalid code), inserts no
row and fails — but with HTTP status 500, not 400: the intended
`HTTPException(400, "TypeScript syntax validation failed:\nUnmatched
braces: …")` is swallowed by the endpoint's blanket `except Exception`
and re-raised as 500, its detail still naming the unmatched braces. -/
theorem create_file_unmatched_brace_evaluated :
    create_file_typescript false brokenTs (fun _ => .raised) =
      .httpError 500
        ("File creation failed: 400: TypeScript syntax validation failed:\n" ++
         "Unmatched braces: 1 open, 0 close " ++
         "(Suggestion: Check for missing or extra braces)") ∧
    create_file_typescript false brokenTs (fun _ => .healed brokenTs) =
      .httpError 500
        ("File creation failed: 400: TypeScript syntax validation failed:\n" ++
         "Unmatched braces: 1 open, 0 close " ++
         "(Suggestion: Check for missing or extra braces)") ∧
    (∀ stored, ¬ create_file_typescript false brokenTs (fun _ => .raised) =
      .created stored) := by
  refine ⟨by decide, by decide, ?_⟩
  intro stored h
  have : CreateFileOutcome.httpError 500
      ("File creation failed: 400: TypeScript syntax validation failed:\n" ++
       "Unmatched braces: 1 open, 0 close " ++
       "(Suggestion: Check for missing or extra braces)") = .created stored := by
    rw [← h]
    decide
  cases this

/-! ## Preview build staging (`app/apis/preview/__init__.py`, `build_preview`)

Two passes over the rows fetched from `generated_files`:
the first strips a leading `frontend/` prefix and discards backend files
while building the `files` dict; the second strips a leading `frontend/`
prefix *again* and roots the remainder at `src/`, building
`normalized_files`, whose entries are then written into the workspace. -/

def stripFront (p : String) : String :=
  if pyStartsWith p "frontend/" then pyDrop p ("frontend/".length) else p

def ensureSrc (p : String) : String :=
  if pyStartsWith p "src/" then p else "src/" ++ p

/-- The first pass's discard test, in source order: the stripped path or
the original path starts with `backend/`. -/
def discardCond (p : String) : Bool :=
  pyStartsWith (stripFront p) "backend/" || pyStartsWith p "backend/"

/-- First pass of `build_preview` (rows → `files` dict). -/
def buildFilesDict (acc : List (String × String)) :
    List (String × String) → List (String × String)
  | [] => acc
  | (file_path, content) :: rest =>
    if discardCond file_path then
      buildFilesDict acc rest
    else
      buildFilesDict (dictInsert acc (stripFront file_path) content) rest

/-- Second pass (`files` → `normalized_files` dict, whose entries are then
written into the workspace). -/
def normalizeFilesDict (acc : List (String × String)) :
    List (String × String) → List (String × String)
  | [] => acc
  | (file_path, content) :: rest =>
    normalizeFilesDict (dictInsert acc (ensureSrc (stripFront file_path)) content) rest

/-- The staged file dict of `build_preview` for the given active rows. -/
def stageFiles (rows : List (String × String)) : List (String × String) :=
  normalizeFilesDict [] (buildFilesDict [] rows)

/-- The claim's keep condition: keep a path unless it starts with
`backend/` before or after the strip. -/
def specKeep (p : String) : Bool := ! discardCond p

/-- The normalization exactly as the claim words it: strip a leading
`frontend/` prefix once, then root the remainder at `src/`. -/
def specNormalize (p : String) : String := ensureSrc (stripFront p)

/-- The normalization the code actually performs: the `frontend/` prefix
is stripped in both passes, i.e. up to twice. -/
def codeNormalize (p : String) : String := ensureSrc (stripFront (stripFront p))

theorem buildFilesDict_keys (rows : List (String × String)) :
    ∀ acc q, q ∈ dictKeys (buildFilesDict acc rows) ↔
      q ∈ dictKeys acc ∨
      ∃ p c, (p, c) ∈ rows ∧ specKeep p = true ∧ stripFront p = q := by
  induction rows with
  | nil => intro acc q; simp [buildFilesDict]
  | cons row rest ih =>
    intro acc q
    obtain ⟨p, c⟩ := row
    have hstep : buildFilesDict acc ((p, c) :: rest) =
        if discardCond p then buildFilesDict acc rest
        else buildFilesDict (dictInsert acc (stripFront p) c) rest := rfl
    rw [hstep]
    cases hd : discardCond p with
    | true =>
      rw [if_pos rfl, ih acc q]
      constructor
      · rintro (h | ⟨p2, c2, hmem, hk, hn⟩)
        · exact Or.inl h
        · exact Or.inr ⟨p2, c2, List.mem_cons_of_mem _ hmem, hk, hn⟩
      · rintro (h | ⟨p2, c2, hmem, hk, hn⟩)
        · exact Or.inl h
        · rcases List.mem_cons.mp hmem with heq | hmem2
          · have hp2 : p2 = p := congrArg Prod.fst heq
            rw [hp2] at hk
            unfold specKeep at hk
            rw [hd] at hk
            cases hk
          · exact Or.inr ⟨p2, c2, hmem2, hk, hn⟩
    | false =>
      rw [if_neg Bool.false_ne_true, ih _ q, dictInsert_mem_keys]
      have hkeep : specKeep p = true := by unfold specKeep; rw [hd]; rfl
      constructor
      · rintro ((h | h) | ⟨p2, c2, hmem, hk, hn⟩)
        · exact Or.inl h
        · exact Or.inr ⟨p, c, List.mem_cons_self _ _, hkeep, h.symm⟩
        · exact Or.inr ⟨p2, c2, List.mem_cons_of_mem _ hmem, hk, hn⟩
      · rintro (h | ⟨p2, c2, hmem, hk, hn⟩)
        · exact Or.inl (Or.inl h)
        · rcases List.mem_cons.mp hmem with heq | hmem2
          · have hp2 : p2 = p := congrArg Prod.fst heq
            rw [hp2] at hn
            exact Or.inl (Or.inr hn.symm)
          · exact Or.inr ⟨p2, c2, hmem2, hk, hn⟩

theorem normalizeFilesDict_keys (items : List (String × String)) :
    ∀ acc q, q ∈ dictKeys (normalizeFilesDict acc items) ↔
      q ∈ dictKeys acc ∨
      ∃ p c, (p, c) ∈ items ∧ ensureSrc (stripFront p) = q := by
  induction items with
  | nil => intro acc q; simp [normalizeFilesDict]
  | cons row rest ih =>
    intro acc q
    obtain ⟨p, c⟩ := row
    have hstep : normalizeFilesDict acc ((p, c) :: rest) =
        normalizeFilesDict (dictInsert acc (ensureSrc (stripFront p)) c) rest := rfl
    rw [hstep, ih _ q, dictInsert_mem_keys]
    constructor
    · rintro ((h | h) | ⟨p2, c2, hmem, hn⟩)
      · exact Or.inl h
      · exact Or.inr ⟨p, c, List.mem_cons_self _ _, h.symm⟩
      · exact Or.inr ⟨p2, c2, List.mem_cons_of_mem _ hmem, hn⟩
    · rintro (h | ⟨p2, c2, hmem, hn⟩)
      · exact Or.inl (Or.inl h)
      · rcases List.mem_cons.mp hmem with heq | hmem2
        · have hp2 : p2 = p := congrArg Prod.fst heq
          rw [hp2] at hn
          exact Or.inl (Or.inr hn.symm)
        · exact Or.inr ⟨p2, c2, hmem2, hn⟩

/-- C5 counterexample: a stored path with a doubled `frontend/` prefix is
stripped twice — `frontend/frontend/a.tsx` is staged at `src/a.tsx`,
whereas the claim's single-strip normalization predicts
`src/frontend/a.tsx`, which is not among the written paths. -/
theorem stage_files_counterexample :
    dictKeys (stageFiles [("frontend/frontend/a.tsx", "x")]) = ["src/a.tsx"] ∧
    specKeep "frontend/frontend/a.tsx" = true ∧
    specNormalize "frontend/frontend/a.tsx" = "src/frontend/a.tsx" ∧
    ¬ "src/frontend/a.tsx" ∈
      dictKeys (stageFiles [("frontend/frontend/a.tsx", "x")]) := by
  refine ⟨by decide, by decide, by decide, by decide⟩

/-- C5 amended: the staged paths are exactly the images of the kept rows
(those not rooted at `backend/` before or after stripping) under the
normalization that strips a leading `frontend/` prefix in each of the two
passes — i.e. up to twice — then roots the remainder at `src/`; on paths
that do not retain a `frontend/` prefix after the first strip this
coincides with the claim's single-strip normalization. -/
theorem stage_files_paths :
    (∀ rows q, q ∈ dictKeys (stageFiles rows) ↔
      ∃ p c, (p, c) ∈ rows ∧ specKeep p = true ∧ codeNormalize p = q) ∧
    (∀ p, pyStartsWith (stripFront p) "frontend/" = false →
      codeNormalize p = specNormalize p) := by
  constructor
  · intro rows q
    unfold stageFiles
    rw [normalizeFilesDict_keys _ [] q]
    constructor
    · rintro (h | ⟨p1, c1, hmem, hn⟩)
      · simp [dictKeys] at h
      · have hk : p1 ∈ dictKeys (buildFilesDict [] rows) :=
          List.mem_map_of_mem Prod.fst hmem
        rw [buildFilesDict_keys rows [] p1] at hk
        rcases hk with h | ⟨p, c, hmem2, hkeep, hstrip⟩
        · simp [dictKeys] at h
        · refine ⟨p, c, hmem2, hkeep, ?_⟩
          show ensureSrc (stripFront (stripFront p)) = q
          rw [hstrip, hn]
    · rintro ⟨p, c, hmem, hkeep, hn⟩
      have hk : stripFront p ∈ dictKeys (buildFilesDict [] rows) := by
        rw [buildFilesDict_keys rows [] _]
        exact Or.inr ⟨p, c, hmem, hkeep, rfl⟩
      obtain ⟨e, he, hfst⟩ := List.mem_map.mp hk
      refine Or.inr ⟨e.1, e.2, he, ?_⟩
      rw [hfst, ← hn]
      rfl
  · intro p h
    unfold codeNormalize specNormalize
    have hstr : stripFront (stripFront p) = stripFront p := by
      show (if pyStartsWith (stripFront p) "frontend/" = true
            then pyDrop (stripFront p) ("frontend/".length)
            else stripFront p) = stripFront p
      rw [if_neg (by rw [h]; exact Bool.false_ne_true)]
    rw [hstr]

/-- Witness for `stage_files_paths`: the membership equivalence evaluated
on a one-row input, and the agreement of the two normalizations on a
path with a single `frontend/` prefix. -/
theorem stage_files_paths_witness :
    ("src/pages/Home.tsx" ∈
      dictKeys (stageFiles [("frontend/pages/Home.tsx", "x")]) ↔
      ∃ p c, (p, c) ∈ [("frontend/pages/Home.tsx", "x")] ∧
        specKeep p = true ∧ codeNormalize p = "src/pages/Home.tsx") ∧
    codeNormalize "frontend/pages/Home.tsx" =
      specNormalize "frontend/pages/Home.tsx" :=
  ⟨stage_files_paths.1 [("frontend/pages/Home.tsx", "x")] "src/pages/Home.tsx",
    stage_files_paths.2 "frontend/pages/Home.tsx" (by decide)⟩

/-! ## Workspace manifest update
(`app/apis/preview/__init__.py`, `update_project_pyproject`)

The function finds the `app = […]` line of the manifest, takes the part
after the first `=`, strips it, tokenises it with
`re.findall(r'["\']([^"\',]+)["\']|([a-zA-Z0-9_-]+)', …)` (group 1 for a
quoted name, group 2 for a bare one), drops `''`/`'['`/`']'` tokens,
set-unions with the new packages and rewrites the line sorted and
double-quoted. `parseToks` embeds the findall scan: as with the import
regex, each greedy run is its maximal run because its character class
excludes what must follow, and a failed alternation advances one
character. -/

theorem length_dropWhile_le (p : Char → Bool) (l : List Char) :
    (l.dropWhile p).length ≤ l.length := by
  have h := congrArg List.length (List.takeWhile_append_dropWhile p l)
  rw [List.length_append] at h
  omega

/-- `[^"\',]`. -/
def contentChar (c : Char) : Bool := !(isQuoteChar c || c = ',')

/-- `[a-zA-Z0-9_-]`. -/
def isPkgChar (c : Char) : Bool := c.isAlphanum || c = '_' || c = '-'

/-- The findall scan, with explicit fuel (the scan consumes at least one
character per step, so `cs.length` fuel always suffices). -/
def parseToksF : Nat → List Char → List String
  | _, [] => []
  | 0, _ :: _ => []
  | fuel + 1, c :: rest =>
    if isQuoteChar c then
      match takeWhile1 contentChar rest with
      | none => parseToksF fuel rest
      | some (t, r1) =>
        match r1 with
        | [] => parseToksF fuel rest
        | q :: r2 =>
          if isQuoteChar q then String.mk t :: parseToksF fuel r2
          else parseToksF fuel rest
    else if isPkgChar c then
      String.mk ((c :: rest).takeWhile isPkgChar) ::
        parseToksF fuel ((c :: rest).dropWhile isPkgChar)
    else parseToksF fuel rest

def parseToks (cs : List Char) : List String := parseToksF cs.length cs

theorem parseToksF_nil (f : Nat) : parseToksF f [] = [] := by
  cases f <;> rfl

theorem takeWhile1_some_inv (p : Char → Bool) (cs t r : List Char)
    (h : takeWhile1 p cs = some (t, r)) :
    t = cs.takeWhile p ∧ r = cs.dropWhile p ∧ ¬ t = [] := by
  unfold takeWhile1 at h
  cases hw : cs.takeWhile p with
  | nil => rw [hw] at h; cases h
  | cons a u =>
    rw [hw] at h
    dsimp only at h
    injection h with h2
    have ht : a :: u = t := congrArg Prod.fst h2
    have hr : cs.dropWhile p = r := congrArg Prod.snd h2
    refine ⟨ht.symm, hr.symm, ?_⟩
    rw [← ht]
    simp

theorem parseToksF_fuel (f : Nat) :
    ∀ g cs, cs.length ≤ f → cs.length ≤ g → parseToksF f cs = parseToksF g cs := by
  induction f with
  | zero =>
    intro g cs hf _
    cases cs with
    | nil => rw [parseToksF_nil, parseToksF_nil]
    | cons c rest => simp at hf
  | succ f ih =>
    intro g cs hf hg
    cases cs with
    | nil => rw [parseToksF_nil, parseToksF_nil]
    | cons c rest =>
      cases g with
      | zero => simp at hg
      | succ g =>
        simp only [List.length_cons] at hf hg
        simp only [parseToksF]
        by_cases hq : isQuoteChar c = true
        · rw [if_pos hq, if_pos hq]
          cases htk : takeWhile1 contentChar rest with
          | none =>
            dsimp only
            exact ih g rest (by omega) (by omega)
          | some pr =>
            obtain ⟨t, r1⟩ := pr
            dsimp only
            cases r1 with
            | nil => exact ih g rest (by omega) (by omega)
            | cons q r2 =>
              dsimp only
              have hlt := takeWhile1_length_lt contentChar rest t (q :: r2) htk
              simp only [List.length_cons] at hlt
              by_cases hq2 : isQuoteChar q = true
              · rw [if_pos hq2, if_pos hq2]
                rw [ih g r2 (by omega) (by omega)]
              · rw [if_neg hq2, if_neg hq2]
                exact ih g rest (by omega) (by omega)
        · rw [if_neg hq, if_neg hq]
          by_cases hp : isPkgChar c = true
          · rw [if_pos hp, if_pos hp]
            have hdl : ((c :: rest).dropWhile isPkgChar).length ≤ rest.length := by
              rw [List.dropWhile_cons, if_pos hp]
              exact length_dropWhile_le isPkgChar rest
            rw [ih g _ (by omega) (by omega)]
          · rw [if_neg hp, if_neg hp]
            exact ih g rest (by omega) (by omega)

theorem parseToks_nil : parseToks [] = [] := rfl

theorem parseToks_skip (c : Char) (cs : List Char)
    (h1 : isQuoteChar c = false) (h2 : isPkgChar c = false) :
    parseToks (c :: cs) = parseToks cs := by
  show parseToksF (c :: cs).length (c :: cs) = parseToksF cs.length cs
  rw [List.length_cons]
  simp only [parseToksF]
  rw [if_neg (by rw [h1]; exact Bool.false_ne_true),
    if_neg (by rw [h2]; exact Bool.false_ne_true)]

theorem takeWhile_all_append (p : Char → Bool) (n : List Char) (c : Char)
    (cs : List Char) (hall : ∀ x ∈ n, p x = true) (hc : p c = false) :
    (n ++ c :: cs).takeWhile p = n ∧ (n ++ c :: cs).dropWhile p = c :: cs := by
  induction n with
  | nil =>
    constructor
    · rw [List.nil_append, List.takeWhile_cons,
        if_neg (by rw [hc]; exact Bool.false_ne_true)]
    · rw [List.nil_append, List.dropWhile_cons,
        if_neg (by rw [hc]; exact Bool.false_ne_true)]
  | cons a t ih =>
    have ha := hall a (List.mem_cons_self a t)
    obtain ⟨ih1, ih2⟩ := ih (fun x hx => hall x (List.mem_cons_of_mem a hx))
    constructor
    · rw [List.cons_append, List.takeWhile_cons, if_pos ha, ih1]
    · rw [List.cons_append, List.dropWhile_cons, if_pos ha, ih2]

/-- `f'"{pkg}"'`: the double-quoting applied when the line is rewritten. -/
def quoteName (p : String) : String := "\"" ++ p ++ "\""

def quotedChars (p : String) : List Char := '"' :: (p.data ++ ['"'])

theorem quoteName_data (p : String) : (quoteName p).data = quotedChars p := by
  unfold quoteName quotedChars
  rw [String.data_append, String.data_append]
  rfl

/-- A package name as stored: neither empty nor a stray bracket token, and
made of characters the findall scan can emit. -/
def goodName (p : String) : Bool :=
  !(p == "" || p == "[" || p == "]") && p.data.all contentChar

theorem goodName_ne_nil (p : String) (h : goodName p = true) :
    ¬ p.data = [] := by
  intro hnil
  have hp : p = "" := by
    have h2 : String.mk p.data = String.mk [] := by rw [hnil]
    exact h2
  rw [hp] at h
  exact absurd h (by decide)

theorem goodName_content (p : String) (h : goodName p = true) :
    ∀ x ∈ p.data, contentChar x = true := by
  unfold goodName at h
  intro x hx
  cases hall : p.data.all contentChar with
  | false => rw [hall, Bool.and_false] at h; exact absurd h Bool.false_ne_true
  | true => exact List.all_eq_true.mp hall x hx

theorem parseToks_quoted (n : List Char) (cs : List Char)
    (hne : ¬ n = []) (hc : ∀ x ∈ n, contentChar x = true) :
    parseToks ('"' :: (n ++ '"' :: cs)) = String.mk n :: parseToks cs := by
  obtain ⟨htw, hdw⟩ :=
    takeWhile_all_append contentChar n '"' cs hc (by decide)
  have htk1 : takeWhile1 contentChar (n ++ '"' :: cs) = some (n, '"' :: cs) := by
    unfold takeWhile1
    rw [htw, hdw]
    cases n with
    | nil => exact absurd rfl hne
    | cons a t => rfl
  show parseToksF ('"' :: (n ++ '"' :: cs)).length _ = _
  rw [List.length_cons]
  simp only [parseToksF]
  rw [if_pos (by decide : isQuoteChar '"' = true), htk1]
  dsimp only
  rw [if_pos (by decide : isQuoteChar '"' = true)]
  have hlen : cs.length ≤ (n ++ '"' :: cs).length := by
    rw [List.length_append, List.length_cons]
    omega
  rw [parseToksF_fuel _ cs.length cs hlen (le_refl _)]
  rfl

theorem parseToks_rbracket : parseToks [']'] = [] := by
  rw [parseToks_skip ']' [] (by decide) (by decide), parseToks_nil]

/-- Every token the findall scan emits is nonempty and free of quotes and
commas (group 1 matches `[^"\',]+`, group 2 matches `[a-zA-Z0-9_-]+`). -/
theorem parseToksF_tokens_content (f : Nat) :
    ∀ cs, ∀ tok ∈ parseToksF f cs,
      ¬ tok.data = [] ∧ ∀ x ∈ tok.data, contentChar x = true := by
  induction f with
  | zero =>
    intro cs tok htok
    cases cs with
    | nil => rw [parseToksF_nil] at htok; cases htok
    | cons c rest => cases htok
  | succ f ih =>
    intro cs tok htok
    cases cs with
    | nil => rw [parseToksF_nil] at htok; cases htok
    | cons c rest =>
      simp only [parseToksF] at htok
      by_cases hq : isQuoteChar c = true
      · rw [if_pos hq] at htok
        cases htk : takeWhile1 contentChar rest with
        | none =>
          rw [htk] at htok
          exact ih rest tok htok
        | some pr =>
          obtain ⟨t, r1⟩ := pr
          rw [htk] at htok
          dsimp only at htok
          cases r1 with
          | nil => exact ih rest tok htok
          | cons q r2 =>
            dsimp only at htok
            by_cases hq2 : isQuoteChar q = true
            · rw [if_pos hq2] at htok
              rcases List.mem_cons.mp htok with rfl | hmem
              · obtain ⟨ht, _, hne⟩ := takeWhile1_some_inv contentChar rest t _ htk
                refine ⟨hne, ?_⟩
                intro x hx
                have hx2 : x ∈ rest.takeWhile contentChar := by
                  rw [← ht]
                  exact hx
                exact List.mem_takeWhile_imp hx2
              · exact ih r2 tok hmem
            · rw [if_neg hq2] at htok
              exact ih rest tok htok
      · rw [if_neg hq] at htok
        by_cases hp : isPkgChar c = true
        · rw [if_pos hp] at htok
          rcases List.mem_cons.mp htok with rfl | hmem
          · constructor
            · show ¬ (c :: rest).takeWhile isPkgChar = []
              rw [List.takeWhile_cons, if_pos hp]
              simp
            · intro x hx
              have hpk : isPkgChar x = true := List.mem_takeWhile_imp hx
              show contentChar x = true
              by_cases hx1 : x = '"'
              · rw [hx1] at hpk
                exact absurd hpk (by decide)
              · by_cases hx2 : x = '\''
                · rw [hx2] at hpk
                  exact absurd hpk (by decide)
                · by_cases hx3 : x = ','
                  · rw [hx3] at hpk
                    exact absurd hpk (by decide)
                  · simp [contentChar, isQuoteChar, hx1, hx2, hx3]
          · exact ih _ tok hmem
        · rw [if_neg hp] at htok
          exact ih rest tok htok

theorem parseToks_tokens_content (cs : List Char) :
    ∀ tok ∈ parseToks cs,
      ¬ tok.data = [] ∧ ∀ x ∈ tok.data, contentChar x = true :=
  parseToksF_tokens_content cs.length cs

/-- Parsing back a serialised package list recovers exactly the names. -/
theorem parseToks_serialize (names : List String)
    (h : ∀ p ∈ names, goodName p = true) :
    parseToks (pyJoinChar [',', ' '] (names.map quotedChars) ++ [']']) =
      names := by
  induction names with
  | nil =>
    show parseToks ([] ++ [']']) = []
    rw [List.nil_append, parseToks_rbracket]
  | cons n rest ih =>
    have hgn := h n (List.mem_cons_self n rest)
    have hne := goodName_ne_nil n hgn
    have hct := goodName_content n hgn
    cases rest with
    | nil =>
      show parseToks (quotedChars n ++ [']']) = [n]
      have he : quotedChars n ++ [']'] = '"' :: (n.data ++ '"' :: [']']) := by
        unfold quotedChars
        simp
      rw [he, parseToks_quoted n.data [']'] hne hct, parseToks_rbracket]
    | cons m rest2 =>
      have hstep : pyJoinChar [',', ' ']
          ((n :: m :: rest2).map quotedChars) =
          quotedChars n ++ [',', ' '] ++
            pyJoinChar [',', ' '] ((m :: rest2).map quotedChars) := rfl
      rw [hstep]
      have he : quotedChars n ++ [',', ' '] ++
          pyJoinChar [',', ' '] ((m :: rest2).map quotedChars) ++ [']'] =
          '"' :: (n.data ++ '"' ::
            (',' :: ' ' ::
              (pyJoinChar [',', ' '] ((m :: rest2).map quotedChars) ++ [']']))) := by
        unfold quotedChars
        simp
      rw [he, parseToks_quoted n.data _ hne hct,
        parseToks_skip ',' _ (by decide) (by decide),
        parseToks_skip ' ' _ (by decide) (by decide),
        ih (fun p hp => h p (List.mem_cons_of_mem n hp))]

theorem pySplitChar_ne_nil (c : Char) (l : List Char) :
    ¬ pySplitChar c l = [] := by
  cases l with
  | nil => exact fun h => List.cons_ne_nil [] [] h
  | cons d t =>
    unfold pySplitChar
    by_cases hd : d = c
    · rw [if_pos hd]
      exact fun h => List.cons_ne_nil _ _ h
    · rw [if_neg hd]
      cases pySplitChar c t with
      | nil => exact fun h => List.cons_ne_nil _ _ h
      | cons hh r => exact fun h => List.cons_ne_nil _ _ h

/-- Splitting at the first separator when the prefix holds none. -/
theorem pySplitChar_sep_append (c : Char) (pre rest : List Char)
    (h : ∀ x ∈ pre, ¬ x = c) :
    pySplitChar c (pre ++ c :: rest) = pre :: pySplitChar c rest := by
  induction pre with
  | nil =>
    rw [List.nil_append]
    show pySplitChar c (c :: rest) = [] :: pySplitChar c rest
    rw [pySplitChar, if_pos rfl]
  | cons d t ih =>
    have hd := h d (List.mem_cons_self d t)
    rw [List.cons_append]
    show pySplitChar c (d :: (t ++ c :: rest)) = (d :: t) :: pySplitChar c rest
    rw [pySplitChar, if_neg hd,
      ih (fun x hx => h x (List.mem_cons_of_mem d hx))]

/-- `c.join(s.split(c)) == s`: the `split('=', 1)[1]` reconstruction loses
nothing. -/
theorem pyJoinChar_pySplitChar (c : Char) (l : List Char) :
    pyJoinChar [c] (pySplitChar c l) = l := by
  induction l with
  | nil => rfl
  | cons d t ih =>
    show pyJoinChar [c] (pySplitChar c (d :: t)) = d :: t
    unfold pySplitChar
    by_cases hd : d = c
    · rw [if_pos hd]
      cases hs : pySplitChar c t with
      | nil => exact absurd hs (pySplitChar_ne_nil c t)
      | cons hh r =>
        rw [hs] at ih
        show [] ++ [c] ++ pyJoinChar [c] (hh :: r) = d :: t
        rw [List.nil_append, ih, hd]
        rfl
    · rw [if_neg hd]
      cases hs : pySplitChar c t with
      | nil => exact absurd hs (pySplitChar_ne_nil c t)
      | cons hh r =>
        rw [hs] at ih
        cases r with
        | nil =>
          show pyJoinChar [c] [d :: hh] = d :: t
          have ih2 : hh = t := ih
          show d :: hh = d :: t
          rw [ih2]
        | cons rr rs =>
          show (d :: hh) ++ [c] ++ pyJoinChar [c] (rr :: rs) = d :: t
          rw [← ih]
          rfl

theorem pyJoin_data (sep : String) (parts : List String) :
    (pyJoin sep parts).data = pyJoinChar sep.data (parts.map String.data) := rfl

theorem map_data_map_mk (l : List (List Char)) :
    (l.map String.mk).map String.data = l := by
  induction l with
  | nil => rfl
  | cons x t ih =>
    simp only [List.map_cons]
    rw [ih]

theorem map_data_map_quoteName (names : List String) :
    (names.map quoteName).map String.data = names.map quotedChars := by
  induction names with
  | nil => rfl
  | cons n t ih =>
    simp only [List.map_cons, quoteName_data]
    rw [ih]

/-- `strip()` on the tail of the `app = […]` line: one leading space, and
the closing bracket keeps the right end. -/
theorem pyStrip_space_bracket (bs : List Char) :
    pyStrip (String.mk (' ' :: '[' :: (bs ++ [']']))) =
      String.mk ('[' :: (bs ++ [']'])) := by
  have h1 : (' ' :: '[' :: (bs ++ [']'])).dropWhile wsChar =
      '[' :: (bs ++ [']']) := by
    rw [List.dropWhile_cons, if_pos (by decide : wsChar ' ' = true),
      List.dropWhile_cons, if_neg (show ¬ wsChar '[' = true by decide)]
  have h2 : ('[' :: (bs ++ [']'])).reverse = ']' :: (bs.reverse ++ ['[']) := by
    rw [List.reverse_cons, List.reverse_append]
    rfl
  have h3 : (']' :: (bs.reverse ++ ['['])).dropWhile wsChar =
      ']' :: (bs.reverse ++ ['[']) := by
    rw [List.dropWhile_cons, if_neg (show ¬ wsChar ']' = true by decide)]
  show String.mk (((((' ' :: '[' :: (bs ++ [']'])).dropWhile
      wsChar).reverse.dropWhile wsChar).reverse)) = _
  rw [h1, h2, h3, List.reverse_cons, List.reverse_append,
    List.reverse_reverse]
  rfl

theorem mem_pySorted (x : String) (l : List String) :
    x ∈ pySorted l ↔ x ∈ l :=
  List.Perm.mem_iff (List.perm_insertionSort pyStrLe l)

theorem goodName_keep (p : String) (h : goodName p = true) :
    (!(p == "" || p == "[" || p == "]")) = true := by
  cases hk : (!(p == "" || p == "[" || p == "]")) with
  | true => rfl
  | false =>
    unfold goodName at h
    rw [hk, Bool.false_and] at h
    exact absurd h Bool.false_ne_true

/-- The parse of the part of the `app = […]` line after the first `=`:
`split('=', 1)[1].strip()`, the findall scan, then the bracket/empty
filter. -/
def parseAppPackages (app_line : String) : List String :=
  (parseToks (pyStrip (pyJoin "=" ((pySplit app_line '=').tail))).data).filter
    (fun pkg => !(pkg == "" || pkg == "[" || pkg == "]"))

/-- The rewritten `app = […]` line: existing names unioned with the new
packages, deduplicated, sorted, quoted and comma-joined. -/
def update_project_pyproject_line (app_line : String)
    (packages : List String) : String :=
  "app = [" ++ pyJoin ", "
    ((pySorted (pySet (parseAppPackages app_line ++ packages))).map
      quoteName) ++ "]"

theorem parseAppPackages_good (line : String) :
    ∀ p ∈ parseAppPackages line, goodName p = true := by
  intro p hp
  unfold parseAppPackages at hp
  obtain ⟨hmem, hfil⟩ := List.mem_filter.mp hp
  have hfil2 : (!(p == "" || p == "[" || p == "]")) = true := hfil
  obtain ⟨hne, hct⟩ := parseToks_tokens_content _ p hmem
  show (!(p == "" || p == "[" || p == "]") && p.data.all contentChar) = true
  rw [hfil2, List.all_eq_true.mpr hct]
  rfl

/-- Re-parsing a line the serialiser wrote recovers exactly the names. -/
theorem parseAppPackages_serialized (names : List String)
    (h : ∀ p ∈ names, goodName p = true) :
    parseAppPackages ("app = [" ++ pyJoin ", " (names.map quoteName) ++ "]") =
      names := by
  have hsplit : pySplitChar '='
      (("app = [" ++ pyJoin ", " (names.map quoteName) ++ "]").data) =
      ['a', 'p', 'p', ' '] :: pySplitChar '='
        (' ' :: '[' :: ((pyJoin ", " (names.map quoteName)).data ++ [']'])) := by
    show pySplitChar '=' (['a', 'p', 'p', ' '] ++ '=' ::
        (' ' :: '[' :: ((pyJoin ", " (names.map quoteName)).data ++ [']']))) = _
    exact pySplitChar_sep_append '=' ['a', 'p', 'p', ' '] _ (by decide)
  have hps : pyStrip (pyJoin "=" ((pySplit
      ("app = [" ++ pyJoin ", " (names.map quoteName) ++ "]") '=').tail)) =
      String.mk ('[' :: ((pyJoin ", " (names.map quoteName)).data ++ [']'])) := by
    unfold pySplit
    rw [hsplit, List.map_cons, List.tail_cons]
    unfold pyJoin
    rw [map_data_map_mk, show ("=" : String).data = ['='] from rfl,
      pyJoinChar_pySplitChar]
    exact pyStrip_space_bracket _
  have hB : (pyJoin ", " (names.map quoteName)).data =
      pyJoinChar [',', ' '] (names.map quotedChars) := by
    rw [pyJoin_data, map_data_map_quoteName,
      show (", " : String).data = [',', ' '] from rfl]
  unfold parseAppPackages
  rw [hps,
    show (String.mk ('[' :: ((pyJoin ", " (names.map quoteName)).data ++
      [']']))).data =
      '[' :: ((pyJoin ", " (names.map quoteName)).data ++ [']']) from rfl,
    hB, parseToks_skip '[' _ (by decide) (by decide),
    parseToks_serialize names h]
  exact List.filter_eq_self.mpr (fun p hp => goodName_keep p (h p hp))

theorem parseAppPackages_update (line : String) (packages : List String)
    (hp : ∀ p ∈ packages, goodName p = true) :
    parseAppPackages (update_project_pyproject_line line packages) =
      pySorted (pySet (parseAppPackages line ++ packages)) := by
  unfold update_project_pyproject_line
  apply parseAppPackages_serialized
  intro p hq
  rcases List.mem_append.mp
      ((mem_pySet p _).mp ((mem_pySorted p _).mp hq)) with h1 | h1
  · exact parseAppPackages_good line p h1
  · exact hp p h1

theorem pySorted_pySet_absorb (names packages : List String)
    (hnd : names.Nodup) (hsorted : List.Sorted pyStrLe names)
    (hsub : ∀ p ∈ packages, p ∈ names) :
    pySorted (pySet (names ++ packages)) = names := by
  have h2 : List.Perm (pySet (names ++ packages)) names := by
    rw [List.perm_ext_iff_of_nodup (pySet_nodup _) hnd]
    intro q
    rw [mem_pySet, List.mem_append]
    constructor
    · rintro (h | h)
      · exact h
      · exact hsub q h
    · exact Or.inl
  exact List.eq_of_perm_of_sorted
    ((List.perm_insertionSort pyStrLe _).trans h2)
    (List.sorted_insertionSort pyStrLe _) hsorted

/-- C7 counterexample: a package name containing a comma survives the
first write but is split apart by the re-parse, so applying the same
package set a second time changes the manifest line. -/
theorem pyproject_idempotence_counterexample :
    ¬ update_project_pyproject_line
        (update_project_pyproject_line "app = []" ["a,b"]) ["a,b"] =
      update_project_pyproject_line "app = []" ["a,b"] := by decide

/-- C7: on an `app = […]` line, the rewrite's parsed package list is the
set-union of the existing names and the new ones, duplicate-free and
sorted, and rewriting again with the same packages leaves the line
unchanged - provided every new name is nonempty, is not a bare bracket
token, and contains no quote or comma (which the stored names always
satisfy). -/
theorem update_project_pyproject_spec (line : String) (packages : List String)
    (hp : ∀ p ∈ packages, goodName p = true) :
    (∀ q, q ∈ parseAppPackages (update_project_pyproject_line line packages) ↔
        (q ∈ parseAppPackages line ∨ q ∈ packages)) ∧
    (parseAppPackages (update_project_pyproject_line line packages)).Nodup ∧
    List.Sorted pyStrLe
      (parseAppPackages (update_project_pyproject_line line packages)) ∧
    update_project_pyproject_line
        (update_project_pyproject_line line packages) packages =
      update_project_pyproject_line line packages := by
  have hparse := parseAppPackages_update line packages hp
  have hnd2 : (pySorted (pySet (parseAppPackages line ++ packages))).Nodup :=
    ((List.perm_insertionSort pyStrLe _).nodup_iff).mpr (pySet_nodup _)
  have hsort2 : List.Sorted pyStrLe
      (pySorted (pySet (parseAppPackages line ++ packages))) :=
    List.sorted_insertionSort pyStrLe _
  have hsub : ∀ p ∈ packages,
      p ∈ pySorted (pySet (parseAppPackages line ++ packages)) := by
    intro p h
    rw [mem_pySorted, mem_pySet, List.mem_append]
    exact Or.inr h
  refine ⟨?_, ?_, ?_, ?_⟩
  · intro q
    rw [hparse, mem_pySorted, mem_pySet, List.mem_append]
  · rw [hparse]
    exact hnd2
  · rw [hparse]
    exact hsort2
  · have habs : pySorted (pySet
        (parseAppPackages (update_project_pyproject_line line packages) ++
          packages)) =
        pySorted (pySet (parseAppPackages line ++ packages)) := by
      rw [hparse]
      exact pySorted_pySet_absorb _ packages hnd2 hsort2 hsub
    show "app = [" ++ pyJoin ", "
        ((pySorted (pySet
          (parseAppPackages (update_project_pyproject_line line packages) ++
            packages))).map quoteName) ++ "]" =
      update_project_pyproject_line line packages
    rw [habs]
    rfl

/-- Witness for `update_project_pyproject_spec` on a one-package line and
one new package. -/
theorem update_project_pyproject_spec_witness :
    (∀ p ∈ ["numpy"], goodName p = true) ∧
    ((∀ q, q ∈ parseAppPackages
          (update_project_pyproject_line "app = [\"requests\"]" ["numpy"]) ↔
        (q ∈ parseAppPackages "app = [\"requests\"]" ∨ q ∈ ["numpy"])) ∧
      (parseAppPackages
        (update_project_pyproject_line "app = [\"requests\"]"
          ["numpy"])).Nodup ∧
      List.Sorted pyStrLe (parseAppPackages
        (update_project_pyproject_line "app = [\"requests\"]" ["numpy"])) ∧
      update_project_pyproject_line
          (update_project_pyproject_line "app = [\"requests\"]" ["numpy"])
          ["numpy"] =
        update_project_pyproject_line "app = [\"requests\"]" ["numpy"]) :=
  ⟨by decide,
    update_project_pyproject_spec "app = [\"requests\"]" ["numpy"] (by decide)⟩

/-! ## Asset serving (`app/apis/preview/__init__.py`, `serve_preview_assets`)

Paths are modelled as absolute segment lists; `resolveSegs` is
`Path.resolve()` without symlinks (`..` pops, `.` and empty segments are
dropped); the filesystem is the list of regular files; existence and
`is_file` are checked on the resolved path, as the OS does. `BUILD_CACHE`
maps project ids to dist-directory segment lists. -/

def resolveSegs (segs : List String) : List String :=
  segs.foldl
    (fun acc s =>
      if s = ".." then acc.dropLast
      else if s = "." ∨ s = "" then acc
      else acc ++ [s]) []

/-- `str(path)` for an absolute segment list. -/
def pathStr (segs : List String) : String := "/" ++ pyJoin "/" segs

/-- The media-type ladder at the end of the endpoint. -/
def mediaTypeOf (filepath : String) : String :=
  if pyEndsWith filepath ".js" then "application/javascript"
  else if pyEndsWith filepath ".css" then "text/css"
  else if pyEndsWith filepath ".json" then "application/json"
  else if pyEndsWith filepath ".svg" then "image/svg+xml"
  else "application/octet-stream"

inductive AssetResponse where
  | err (status : Nat) (detail : String)
  | file (path : List String) (media_type : String)
deriving DecidableEq

/-- The endpoint: 404 without a cache entry, 404 unless the resolved path
is a regular file, 403 when `str(asset_path.resolve())` fails
`startswith(str((dist_dir / "assets").resolve()))`, else the file with
its extension-derived media type. -/
def serve_preview_assets (cache : List (String × List String))
    (files : List (List String)) (project_id filepath : String) :
    AssetResponse :=
  match pyLookup project_id cache with
  | none => .err 404 "Preview not built"
  | some dist =>
    if resolveSegs (dist ++ "assets" :: pySplit filepath '/') ∈ files then
      if pyStartsWith
          (pathStr (resolveSegs (dist ++ "assets" :: pySplit filepath '/')))
          (pathStr (resolveSegs (dist ++ ["assets"]))) then
        .file (resolveSegs (dist ++ "assets" :: pySplit filepath '/'))
          (mediaTypeOf filepath)
      else .err 403 "Invalid asset path"
    else .err 404 "Asset not found"

/-- True containment in the assets directory (segment-level extension). -/
def insideAssets (dist resolved : List String) : Bool :=
  (resolveSegs (dist ++ ["assets"])).isPrefixOf resolved

/-- The claim's endpoint, word for word: identical except that the
security check is true containment of the resolved location in
`dist/assets` rather than a rendered-string prefix test. -/
def specServeAssets (cache : List (String × List String))
    (files : List (List String)) (project_id filepath : String) :
    AssetResponse :=
  match pyLookup project_id cache with
  | none => .err 404 "Preview not built"
  | some dist =>
    if resolveSegs (dist ++ "assets" :: pySplit filepath '/') ∈ files then
      if insideAssets dist
          (resolveSegs (dist ++ "assets" :: pySplit filepath '/')) then
        .file (resolveSegs (dist ++ "assets" :: pySplit filepath '/'))
          (mediaTypeOf filepath)
      else .err 403 "Invalid asset path"
    else .err 404 "Asset not found"

/-- C10 counterexample: with dist directory `/srv/dist` cached and a
regular file at `/srv/dist/assetsx/x.js`, the request
`../assetsx/x.js` resolves outside `dist/assets`, yet its rendered path
`/srv/dist/assetsx/x.js` passes the `startswith("/srv/dist/assets")`
test, so the endpoint serves it; the claim's endpoint answers 403. -/
theorem serve_assets_escape_counterexample :
    serve_preview_assets [("p", ["srv", "dist"])]
        [["srv", "dist", "assetsx", "x.js"]] "p" "../assetsx/x.js" =
      AssetResponse.file ["srv", "dist", "assetsx", "x.js"]
        "application/javascript" ∧
    specServeAssets [("p", ["srv", "dist"])]
        [["srv", "dist", "assetsx", "x.js"]] "p" "../assetsx/x.js" =
      AssetResponse.err 403 "Invalid asset path" ∧
    insideAssets ["srv", "dist"] ["srv", "dist", "assetsx", "x.js"] =
      false := by decide

/-- C10: the endpoint agrees with the claimed behaviour - 404 without a
build-cache entry, 404 for a missing or non-regular file, 403 outside
`dist/assets`, otherwise the file with its extension-derived media type -
whenever the rendered-string prefix test coincides with true containment
for the requested path; the coincidence fails only for paths escaping
into a sibling whose name extends `assets`. -/
theorem serve_preview_assets_spec (cache : List (String × List String))
    (files : List (List String)) (pid fp : String)
    (hagree : ∀ dist, pyLookup pid cache = some dist →
      pyStartsWith
          (pathStr (resolveSegs (dist ++ "assets" :: pySplit fp '/')))
          (pathStr (resolveSegs (dist ++ ["assets"]))) =
        insideAssets dist (resolveSegs (dist ++ "assets" :: pySplit fp '/'))) :
    serve_preview_assets cache files pid fp =
      specServeAssets cache files pid fp := by
  unfold serve_preview_assets specServeAssets
  cases hl : pyLookup pid cache with
  | none => rfl
  | some dist =>
    dsimp only
    by_cases hm : resolveSegs (dist ++ "assets" :: pySplit fp '/') ∈ files
    · rw [if_pos hm, if_pos hm, hagree dist hl]
    · rw [if_neg hm, if_neg hm]

/-- Witness for `serve_preview_assets_spec`: a well-behaved request on a
one-project cache, with the agreement hypothesis discharged by
evaluation. -/
theorem serve_preview_assets_spec_witness :
    serve_preview_assets [("p", ["srv", "dist"])]
        [["srv", "dist", "assets", "x.js"]] "p" "x.js" =
      specServeAssets [("p", ["srv", "dist"])]
        [["srv", "dist", "assets", "x.js"]] "p" "x.js" :=
  serve_preview_assets_spec [("p", ["srv", "dist"])]
    [["srv", "dist", "assets", "x.js"]] "p" "x.js"
    (by
      intro dist h
      injection h with h2
      subst h2
      decide)

end Holio
